import Mathlib

/-!
Verification development for the novelty-weighted pedestrian router
(`graph_builder.py`, `router.py`, `history.py`, `export_graph.py`).

The Python sources are shallowly embedded here:
* machine floats are modelled by exact rationals (`ℚ`); transcendental
  geodesy (`haversine`) is modelled over `ℝ` in its own section;
* the routing engine reads node coordinates only through the haversine
  heuristic `haversine(node_lats[i], node_lons[i], target_lat, target_lon)`
  where the target coordinates are those of the target node, so the graph
  model carries a pairwise distance function `hdist : Nat → Nat → ℚ`
  standing for that haversine value between two node indices;
* `numpy` arrays are lists, `np.inf` entries of `g_score` are `none`,
  the `heapq` priority queue is a bag of entries popped at the
  lexicographic minimum (heap entries are distinct because of the
  strictly increasing push counter, so this is exactly `heappop`);
* Python `while` loops are given explicit fuel; exhausting the fuel — which
  models a run longer than the bound, in particular divergence — yields no
  result, exactly like an exhausted queue (`NoPath`);
* a raised `KeyError` from `idx_for_osm_id` is `Except.error "UnknownNode"`.
-/

namespace OsmRouter

/-- CSR graph as loaded by `graph_builder.CompactGraph` (`node_lats`/`node_lons`
are only ever read through `haversine`, modelled by `hdist`; the edge metadata
arrays are not read by the routing functions and are modelled separately in the
builder section). -/
structure CompactGraph where
  node_ids : List Int
  adj_offsets : List Nat
  adj_targets : List Nat
  adj_weights : List ℚ
  hdist : Nat → Nat → ℚ

/-- `CompactGraph.number_of_nodes`. -/
def CompactGraph.number_of_nodes (g : CompactGraph) : Nat := g.node_ids.length

/-- `CompactGraph.neighbors`: the zero-copy slices
`adj_targets[start:end], adj_weights[start:end]`, zipped. -/
def CompactGraph.neighbors (g : CompactGraph) (idx : Nat) : List (Nat × ℚ) :=
  let s := g.adj_offsets.getD idx 0
  let e := g.adj_offsets.getD (idx + 1) 0
  ((g.adj_targets.drop s).take (e - s)).zip ((g.adj_weights.drop s).take (e - s))

/-- `CompactGraph.idx_for_osm_id` via the `node_id_to_idx` dict.  The dict is
built by enumeration; since `node_ids` has no duplicates in any built graph,
the first index is the index. -/
def idx_for_osm_id (g : CompactGraph) (osm : Int) : Option Nat :=
  g.node_ids.findIdx? (· == osm)

/-- `int(G.node_ids[i])`. -/
def osm_of (g : CompactGraph) (i : Nat) : Int := g.node_ids.getD i 0

/-- A priority-queue entry `(f_score, g_score, counter, node_idx)`. -/
abbrev Entry : Type := ℚ × ℚ × Nat × Nat

/-- Lexicographic order on queue entries — Python tuple comparison. -/
def entry_le (a b : Entry) : Bool :=
  if a.1 < b.1 then true
  else if b.1 < a.1 then false
  else if a.2.1 < b.2.1 then true
  else if b.2.1 < a.2.1 then false
  else if a.2.2.1 < b.2.2.1 then true
  else if b.2.2.1 < a.2.2.1 then false
  else a.2.2.2 ≤ b.2.2.2

/-- Select the lexicographically least entry, returning it and the rest. -/
def pop_min_go (m : Entry) : List Entry → List Entry → Entry × List Entry
  | [], acc => (m, acc)
  | y :: ys, acc =>
    if entry_le m y then pop_min_go m ys (y :: acc) else pop_min_go y ys (m :: acc)

/-- `heapq.heappop` on a non-empty queue (`none` iff the queue is empty). -/
def pop_min : List Entry → Option (Entry × List Entry)
  | [] => none
  | x :: xs => some (pop_min_go x xs [])

/-- Mutable search state of one A* run: `came_from` (`-1` = `none`),
`g_score` (`np.inf` = `none`), the open set and the push counter. -/
structure AState where
  came_from : List (Option Nat)
  g_score : List (Option ℚ)
  open_set : List Entry
  counter : Nat

/-- `new_g < g_score[v]` with `g_score[v]` possibly `inf`. -/
def lt_inf (q : ℚ) : Option ℚ → Bool
  | none => true
  | some x => q < x

/-- `g > g_score[current]` (false against `inf`). -/
def gt_score (q : ℚ) : Option ℚ → Bool
  | none => false
  | some x => x < q

/-- `came_from`/`g_score` arrays at search start. -/
def init_state (num_nodes src : Nat) : AState :=
  { came_from := List.replicate num_nodes none
    g_score := (List.replicate num_nodes (none : Option ℚ)).set src (some 0)
    open_set := [(0, 0, 0, src)]
    counter := 0 }

/-- `_reconstruct_path`: follow parent pointers from `cur` (initially the
target), prepending, until the source or the `-1` sentinel; the fuelled
recursion returns `none` when the pointer chain is longer than the fuel
(the Python loop would still be running). -/
def reconstruct_go (came_from : List (Option Nat)) (src : Nat) :
    Nat → Nat → List Nat → Option (List Nat)
  | fuel, cur, acc =>
    let acc2 := cur :: acc
    if cur = src then some acc2
    else
      match came_from.getD cur none with
      | none => some acc2
      | some nxt =>
        match fuel with
        | 0 => none
        | f + 1 => reconstruct_go came_from src f nxt acc2

/-- `_reconstruct_path(came_from, src_idx, tgt_idx)` (already reversed:
source first). -/
def reconstruct_path (came_from : List (Option Nat)) (src tgt : Nat) :
    Option (List Nat) :=
  reconstruct_go came_from src (came_from.length + 1) tgt []

/-- First weight in `weights[targets == v]`; the Python `[0]` raises
`IndexError` when `v` is not a neighbor of `u`, which cannot happen on a
reconstructed path, so the default `0` is unreachable there. -/
def first_weight (g : CompactGraph) (u v : Nat) : ℚ :=
  match (g.neighbors u).find? (fun tw => tw.1 == v) with
  | some tw => tw.2
  | none => 0

/-- `_path_distance`: sum of unpenalized edge weights along consecutive
index pairs. -/
def path_distance (g : CompactGraph) : List Nat → ℚ
  | [] => 0
  | [_] => 0
  | u :: v :: rest => first_weight g u v + path_distance g (v :: rest)

/-- One relaxation of `shortest_path`'s inner `for` loop. -/
def relax (g : CompactGraph) (tgt cur : Nat) (gval : ℚ) (st : AState)
    (vw : Nat × ℚ) : AState :=
  let v := vw.1
  let new_g := gval + vw.2
  if lt_inf new_g (st.g_score.getD v none) then
    { came_from := st.came_from.set v (some cur)
      g_score := st.g_score.set v (some new_g)
      counter := st.counter + 1
      open_set := st.open_set ++ [(new_g + g.hdist v tgt, new_g, st.counter + 1, v)] }
  else st

/-- The `while open_set:` loop of `shortest_path`.  Returns the reconstructed
index path and the popped `g` at the first pop of the target; `none` both for
an exhausted queue (`NoPath`) and for exhausted fuel. -/
def astar_loop (g : CompactGraph) (src tgt : Nat) :
    Nat → AState → Option (List Nat × ℚ)
  | 0, _ => none
  | fuel + 1, st =>
    match pop_min st.open_set with
    | none => none
    | some (e, rest) =>
      let gval := e.2.1
      let cur := e.2.2.2
      if cur = tgt then
        (reconstruct_path st.came_from src cur).map (fun idxs => (idxs, gval))
      else if gt_score gval (st.g_score.getD cur none) then
        astar_loop g src tgt fuel { st with open_set := rest }
      else
        astar_loop g src tgt fuel
          ((g.neighbors cur).foldl (relax g tgt cur gval) { st with open_set := rest })

/-- Fuel for one A* run; never reached in the verified scenarios. -/
def sp_fuel (g : CompactGraph) : Nat :=
  (g.node_ids.length + g.adj_targets.length + 2) ^ 2

/-- `router.shortest_path` (value `none` is the `(None, None)` no-path
return; `Except.error` is the `KeyError` of `idx_for_osm_id`). -/
def shortest_path (g : CompactGraph) (source_osm target_osm : Int) :
    Except String (Option (List Int × ℚ)) :=
  if source_osm = target_osm then .ok (some ([source_osm], 0))
  else
    match idx_for_osm_id g source_osm, idx_for_osm_id g target_osm with
    | some si, some ti =>
      match astar_loop g si ti (sp_fuel g) (init_state g.number_of_nodes si) with
      | none => .ok none
      | some (idxs, d) => .ok (some (idxs.map (osm_of g), d))
    | _, _ => .error "UnknownNode"

/-- `router._edge_key`: canonical undirected edge key. -/
def edge_key (n1 n2 : Int) : Int × Int := (min n1 n2, max n1 n2)

/-- `router.path_to_edges`. -/
def path_to_edges (path : List Int) : List (Int × Int) :=
  path.zip (path.drop 1)

/-- `router._compute_novelty`. -/
def compute_novelty (edges walked : List (Int × Int)) : ℚ :=
  if edges = [] then 1
  else
    ((edges.filter (fun e => !(walked.contains (edge_key e.1 e.2)))).length : ℚ) /
      (edges.length : ℚ)

/-- One relaxation of `_penalized_astar`'s inner loop: the edge weight is
multiplied by the penalty factor when the canonical OSM edge key is walked. -/
def relax_pen (g : CompactGraph) (walked : List (Int × Int)) (pfac : ℚ)
    (tgt cur : Nat) (gval : ℚ) (st : AState) (vw : Nat × ℚ) : AState :=
  let v := vw.1
  let ek := edge_key (osm_of g cur) (osm_of g v)
  let eff := if walked.contains ek then vw.2 * pfac else vw.2
  let new_g := gval + eff
  if lt_inf new_g (st.g_score.getD v none) then
    { came_from := st.came_from.set v (some cur)
      g_score := st.g_score.set v (some new_g)
      counter := st.counter + 1
      open_set := st.open_set ++ [(new_g + g.hdist v tgt, new_g, st.counter + 1, v)] }
  else st

/-- The `while` loop of `_penalized_astar`; returns the reconstructed index
path at the first pop of the target. -/
def pen_loop (g : CompactGraph) (walked : List (Int × Int)) (pfac : ℚ)
    (src tgt : Nat) : Nat → AState → Option (List Nat)
  | 0, _ => none
  | fuel + 1, st =>
    match pop_min st.open_set with
    | none => none
    | some (e, rest) =>
      let gval := e.2.1
      let cur := e.2.2.2
      if cur = tgt then reconstruct_path st.came_from src cur
      else if gt_score gval (st.g_score.getD cur none) then
        pen_loop g walked pfac src tgt fuel { st with open_set := rest }
      else
        pen_loop g walked pfac src tgt fuel
          ((g.neighbors cur).foldl (relax_pen g walked pfac tgt cur gval)
            { st with open_set := rest })

/-- `router._penalized_astar`: on success the reported distance is the
unpenalized `_path_distance` of the reconstructed index path. -/
def penalized_astar (g : CompactGraph) (source_osm target_osm : Int)
    (walked : List (Int × Int)) (pfac : ℚ) :
    Except String (Option (List Int × ℚ)) :=
  if source_osm = target_osm then .ok (some ([source_osm], 0))
  else
    match idx_for_osm_id g source_osm, idx_for_osm_id g target_osm with
    | some si, some ti =>
      match pen_loop g walked pfac si ti (sp_fuel g) (init_state g.number_of_nodes si) with
      | none => .ok none
      | some idxs => .ok (some (idxs.map (osm_of g), path_distance g idxs))
    | _, _ => .error "UnknownNode"

deriving instance DecidableEq for Except

/-- `router._build_result` (the `instructions` key, attached only when edge
metadata is loaded, is modelled separately with the instruction
synthesizer). -/
structure RouteResult where
  path : List Int
  edges : List (Int × Int)
  distance : ℚ
  shortest_distance : ℚ
  novelty : ℚ
  overhead : ℚ
deriving DecidableEq, Repr

/-- `router._build_result`. -/
def build_result (path : List Int) (distance base_distance : ℚ)
    (walked : List (Int × Int)) : RouteResult :=
  { path := path
    edges := path_to_edges path
    distance := distance
    shortest_distance := base_distance
    novelty := compute_novelty (path_to_edges path) walked
    overhead := if 0 < base_distance then (distance - base_distance) / base_distance else 0 }

/-- Phase-2 `for _ in range(5)` upper-bound search of `novelty_route`
(`lo_penalty` is never written in this phase; the loop returns the final
`hi_penalty`). -/
def up_loop (g : CompactGraph) (s t : Int) (walked : List (Int × Int)) (mn : ℚ) :
    Nat → ℚ → ℚ → Except String ℚ
  | 0, _, hi => .ok hi
  | n + 1, lo, hi =>
    match penalized_astar g s t walked hi with
    | .error e => .error e
    | .ok none => up_loop g s t walked mn n lo ((lo + hi) / 2)
    | .ok (some (p, _)) =>
      if mn ≤ compute_novelty (path_to_edges p) walked then .ok hi
      else
        let hi2 := hi * 2
        if 100 < hi2 then .ok hi2 else up_loop g s t walked mn n lo hi2

/-- Phase-3 `for _ in range(10)` bisection of `novelty_route`; the state is
`(lo_penalty, hi_penalty, best_novelty, best_result)`. -/
def bis_loop (g : CompactGraph) (s t : Int) (walked : List (Int × Int))
    (mn mo base : ℚ) :
    Nat → ℚ × ℚ × ℚ × Option RouteResult → Except String (ℚ × Option RouteResult)
  | 0, (_, _, bn, br) => .ok (bn, br)
  | n + 1, (lo, hi, bn, br) =>
    let mid := (lo + hi) / 2
    match penalized_astar g s t walked mid with
    | .error e => .error e
    | .ok none => bis_loop g s t walked mn mo base n (lo, mid, bn, br)
    | .ok (some (p, d)) =>
      let nov := compute_novelty (path_to_edges p) walked
      let ovh := if 0 < base then (d - base) / base else 0
      let bb := if ovh ≤ mo ∧ bn < nov then (nov, some (build_result p d base walked))
                else (bn, br)
      let lh := if nov < mn then (mid, hi)
                else if mo < ovh then (lo, mid)
                else (mid, hi)
      bis_loop g s t walked mn mo base n (lh.1, lh.2, bb.1, bb.2)

/-- Fallback sweep over the fixed penalties `[1.5, 2.0, 3.0, 5.0, 8.0]`. -/
def fb_loop (g : CompactGraph) (s t : Int) (walked : List (Int × Int))
    (mo base : ℚ) :
    List ℚ → ℚ × Option RouteResult → Except String (ℚ × Option RouteResult)
  | [], (bn, br) => .ok (bn, br)
  | pn :: rest, (bn, br) =>
    match penalized_astar g s t walked pn with
    | .error e => .error e
    | .ok none => fb_loop g s t walked mo base rest (bn, br)
    | .ok (some (p, d)) =>
      let nov := compute_novelty (path_to_edges p) walked
      let ovh := if 0 < base then (d - base) / base else 0
      if ovh ≤ mo ∧ bn < nov then
        fb_loop g s t walked mo base rest (nov, some (build_result p d base walked))
      else fb_loop g s t walked mo base rest (bn, br)

/-- `router.novelty_route(G, source, target, walked_edges, min_novelty,
max_overhead)`. -/
def novelty_route (g : CompactGraph) (source target : Int)
    (walked : List (Int × Int)) (mn mo : ℚ) :
    Except String (Option RouteResult) :=
  match shortest_path g source target with
  | .error e => .error e
  | .ok none => .ok none
  | .ok (some (bp, bd)) =>
    let bnov := compute_novelty (path_to_edges bp) walked
    if mn ≤ bnov then .ok (some (build_result bp bd bd walked))
    else if walked = [] then .ok (some (build_result bp bd bd walked))
    else
      match up_loop g source target walked mn 5 1 10 with
      | .error e => .error e
      | .ok hi =>
        match bis_loop g source target walked mn mo bd 10 (1, hi, bnov, none) with
        | .error e => .error e
        | .ok (bn, br) =>
          match br with
          | none =>
            match fb_loop g source target walked mo bd [3/2, 2, 3, 5, 8] (bn, none) with
            | .error e => .error e
            | .ok (_, none) => .ok (some (build_result bp bd bd walked))
            | .ok (_, some r) => .ok (some r)
          | some r0 =>
            if r0.novelty < mn then
              match fb_loop g source target walked mo bd [3/2, 2, 3, 5, 8] (bn, some r0) with
              | .error e => .error e
              | .ok (_, none) => .ok (some (build_result bp bd bd walked))
              | .ok (_, some r) => .ok (some r)
            else .ok (some r0)

/-- ≈ 111.19493 m: the code's haversine (`R = 6371000`) between `(0, 0)`
and `(0, 0.001)` (and, by the same formula at the equator, between `(0, 0)`
and `(0.001, 0)`), rounded to the `float32` stored in `adj_weights`
(`14574541 / 2 ^ 17`). -/
def wA : ℚ := 14574541 / 131072

/-- ≈ 157.25337 m: the code's haversine (`R = 6371000`) between
`(0, 0.001)` and `(0.001, 0)`, rounded to the `float32` stored in
`adj_weights` (`10305757 / 2 ^ 16`). -/
def wB : ℚ := 10305757 / 65536

/-- The triangle graph of spec scenarios S1/S2: osm 1 at (0.000, 0.000),
osm 2 at (0.000, 0.001), osm 3 at (0.001, 0.000), edges 1–2, 2–3, 1–3,
compiled to CSR with the code's haversine weights (`R = 6371000`); `hdist`
is the same haversine matrix of the three nodes (0 beyond the node
range). -/
def tri : CompactGraph :=
  { node_ids := [1, 2, 3]
    adj_offsets := [0, 2, 4, 6]
    adj_targets := [1, 2, 0, 2, 0, 1]
    adj_weights := [wA, wA, wA, wB, wA, wB]
    hdist := fun i j =>
      if i = j then 0
      else if (i = 1 ∧ j = 2) ∨ (i = 2 ∧ j = 1) then wB
      else if i ≤ 2 ∧ j ≤ 2 then wA
      else 0 }

/-!  `history.py`: the SQLite table `edge_history(edge_start, edge_end,
walk_count, last_walked)` with primary key `(edge_start, edge_end)` is a
list of rows `((edge_start, edge_end), (walk_count, last_walked))`; the
`ON CONFLICT DO UPDATE` upsert increments the matching row.
`history._edge_key` is the same canonicalization as `router._edge_key`
(`edge_key` above). -/

/-- A row set of the `edge_history` table. -/
abbrev Store : Type := List ((Int × Int) × Nat × String)

/-- The `INSERT ... ON CONFLICT(edge_start, edge_end) DO UPDATE SET
walk_count = walk_count + 1, last_walked = ?` statement for one edge key. -/
def upsert_row (k : Int × Int) (now : String) (st : Store) : Store :=
  if st.any (fun r => r.1 == k) then
    st.map (fun r => if r.1 == k then (k, r.2.1 + 1, now) else r)
  else st ++ [(k, 1, now)]

/-- `WalkHistory.record_walk`: canonicalize and upsert each edge, with the
call's timestamp `now` (`datetime.now().isoformat()`). -/
def record_walk (now : String) (route_edges : List (Int × Int)) (st : Store) :
    Store :=
  route_edges.foldl (fun s e => upsert_row (edge_key e.1 e.2) now s) st

/-- The `SELECT ... WHERE edge_start = ? AND edge_end = ?` row lookup. -/
def get_count (st : Store) (k : Int × Int) : Nat :=
  match st.find? (fun r => r.1 == k) with
  | some r => r.2.1
  | none => 0

/-- `WalkHistory.is_walked`. -/
def is_walked (st : Store) (n1 n2 : Int) : Bool :=
  st.any (fun r => r.1 == edge_key n1 n2)

/-- `WalkHistory.get_walk_count`. -/
def get_walk_count (st : Store) (n1 n2 : Int) : Nat :=
  get_count st (edge_key n1 n2)

/-- Occurrences of the canonical key `k` among a list of recorded edges. -/
def count_key (route_edges : List (Int × Int)) (k : Int × Int) : Nat :=
  (route_edges.filter (fun e => edge_key e.1 e.2 == k)).length

/-!  Instruction synthesizer (`router.py` lines 290–349 and the
step-boundary turn computation at lines 433–449). -/

/-- `router._classify_turn`. -/
def classify_turn (angle : ℚ) : String :=
  if |angle| < 15 then "straight"
  else if |angle| < 45 then if angle < 0 then "slight_left" else "slight_right"
  else if |angle| < 120 then if angle < 0 then "left" else "right"
  else if |angle| < 160 then if angle < 0 then "sharp_left" else "sharp_right"
  else "u_turn"

/-- The `_TURN_` phrase dictionary of `router.py` (`""` stands for the
`KeyError` of a missing key, never hit by `generate_instructions`). -/
def turn_phrase : String → String
  | "start" => "Head"
  | "straight" => "Continue"
  | "slight_left" => "Turn slight left"
  | "slight_right" => "Turn slight right"
  | "left" => "Turn left"
  | "right" => "Turn right"
  | "sharp_left" => "Turn sharp left"
  | "sharp_right" => "Turn sharp right"
  | "u_turn" => "Make a U-turn"
  | "arrive" => "Arrive"
  | _ => ""

/-- The two `while` normalization loops of `generate_instructions`
(lines 438–441): bring the angle into `[-180, 180]`. -/
def normalize_angle (a : ℚ) : ℚ :=
  if h1 : 180 < a then normalize_angle (a - 360)
  else if h2 : a < -180 then normalize_angle (a + 360)
  else a
termination_by (⌈|a|⌉).toNat
decreasing_by
· have hpos : (180 : ℤ) < ⌈|a|⌉ := by
    rw [Int.lt_ceil]
    push_cast
    calc (180 : ℚ) < a := h1
    _ ≤ |a| := le_abs_self a
  rcases le_or_lt a 360 with hle | hgt
  · have habs : |a - 360| = 360 - a := by
      rw [abs_of_nonpos (by linarith)]
      ring
    have hsmall : ⌈|a - 360|⌉ ≤ 180 := by
      rw [habs, Int.ceil_le]
      push_cast
      linarith
    omega
  · have habs : |a - 360| = a - 360 := abs_of_nonneg (by linarith)
    have h360 : ⌈|a - 360|⌉ = ⌈|a|⌉ - 360 := by
      rw [habs, abs_of_pos (by linarith : (0 : ℚ) < a)]
      rw [show (360 : ℚ) = ((360 : ℤ) : ℚ) by norm_num, Int.ceil_sub_int]
    omega
· have hpos : (180 : ℤ) < ⌈|a|⌉ := by
    rw [Int.lt_ceil]
    push_cast
    calc (180 : ℚ) < -a := by linarith
    _ ≤ |a| := neg_le_abs a
  rcases le_or_lt (-360) a with hle | hgt
  · have habs : |a + 360| = a + 360 := abs_of_nonneg (by linarith)
    have hsmall : ⌈|a + 360|⌉ ≤ 180 := by
      rw [habs, Int.ceil_le]
      push_cast
      linarith
    omega
  · have habs : |a + 360| = -a - 360 := by
      rw [abs_of_nonpos (by linarith)]
      ring
    have h360 : ⌈|a + 360|⌉ = ⌈|a|⌉ - 360 := by
      rw [habs, abs_of_neg (by linarith : a < 0)]
      rw [show (-a - 360 : ℚ) = -a - ((360 : ℤ) : ℚ) by norm_num, Int.ceil_sub_int]
    omega

/-- The step-boundary computation of `generate_instructions` (lines 434–449)
for a non-first step: normalized signed turn angle (previous exit bearing to
this entry bearing), its class, and the instruction text over the step's
effective name. -/
def turn_step (prev_exit this_entry : ℚ) (effective_name : String) :
    ℚ × String × String :=
  let angle := normalize_angle (this_entry - prev_exit)
  let dir := classify_turn angle
  let txt :=
    if dir = "straight" then turn_phrase dir ++ " on " ++ effective_name
    else turn_phrase dir ++ " onto " ++ effective_name
  (angle, dir, txt)

/-!  Geodesy (`graph_builder.haversine`), over the reals: `math.sin`,
`math.cos`, `math.sqrt`, `math.atan2` and `math.radians` are the
corresponding real functions. -/

/-- `math.radians`. -/
noncomputable def radians (x : ℝ) : ℝ := x * (Real.pi / 180)

/-- `math.atan2(y, x)`, C convention (signed zeros aside). -/
noncomputable def atan2 (y x : ℝ) : ℝ :=
  if 0 < x then Real.arctan (y / x)
  else if x < 0 then
    (if 0 ≤ y then Real.arctan (y / x) + Real.pi else Real.arctan (y / x) - Real.pi)
  else
    (if 0 < y then Real.pi / 2 else if y < 0 then -(Real.pi / 2) else 0)

/-- The local `a` of `graph_builder.haversine`:
`sin(dphi/2)**2 + cos(phi1)*cos(phi2)*sin(dlam/2)**2`. -/
noncomputable def hav_a (lat1 lon1 lat2 lon2 : ℝ) : ℝ :=
  Real.sin (radians (lat2 - lat1) / 2) ^ 2 +
    Real.cos (radians lat1) * Real.cos (radians lat2) *
      Real.sin (radians (lon2 - lon1) / 2) ^ 2

/-- `graph_builder.haversine`: `R * 2 * atan2(sqrt(a), sqrt(1 - a))` with
`R = 6371000`. -/
noncomputable def haversine (lat1 lon1 lat2 lon2 : ℝ) : ℝ :=
  6371000 * 2 * atan2 (Real.sqrt (hav_a lat1 lon1 lat2 lon2))
    (Real.sqrt (1 - hav_a lat1 lon1 lat2 lon2))

/-!  Binary export (`export_graph.py`).  Bytes are naturals < 256; the
float32 arrays (`node_lats`, `node_lons`, `adj_weights`) are stored and
copied bitwise, so they are modelled by their IEEE-754 bit patterns
(`uint32` values serialized little-endian, exactly `astype('<f4').tobytes()`
on the stored values). -/

/-- Little-endian byte encoding of a natural on `k` bytes
(`struct.pack("<I", ...)`-style). -/
def nat_le_bytes : Nat → Nat → List Nat
  | 0, _ => []
  | k + 1, n => n % 256 :: nat_le_bytes k (n / 256)

/-- `struct.pack("<I", n)`. -/
def u32le (n : Nat) : List Nat := nat_le_bytes 4 n

/-- `struct.pack("<H", n)`. -/
def u16le (n : Nat) : List Nat := nat_le_bytes 2 n

/-- A little-endian `int32` (two's complement). -/
def i32le (n : Int) : List Nat := nat_le_bytes 4 (n % (2 ^ 32)).toNat

/-- A little-endian `int64` (two's complement). -/
def i64le (n : Int) : List Nat := nat_le_bytes 8 (n % (2 ^ 64)).toNat

/-- The four v2-only npz arrays.  `export` keys off `edge_name_indices`;
`_graph_to_compact` always writes the four together, so presence of one
implies the rest. -/
structure NpzV2 where
  edge_name_indices : List Nat
  edge_highway_indices : List Nat
  name_table : List Nat
  highway_table : List Nat

/-- The npz contents read by `export_graph.export`. -/
structure NpzData where
  node_ids : List Int
  node_lats : List Nat
  node_lons : List Nat
  adj_offsets : List Int
  adj_targets : List Int
  adj_weights : List Nat
  v2 : Option NpzV2

/-- `bytes.decode("utf-8").split("\n")` on a byte buffer: split at byte 10
(an empty buffer yields one empty string, as in Python). -/
def split_nl : List Nat → List (List Nat)
  | [] => [[]]
  | b :: rest =>
    match split_nl rest with
    | [] => [[b]]
    | h :: t => if b = 10 then [] :: h :: t else (b :: h) :: t

/-- `export_graph._write_string_table`: `u32` count, then per string
`u16` length + UTF-8 bytes. -/
def write_string_table (table_bytes : List Nat) : List Nat :=
  u32le (split_nl table_bytes).length ++
    ((split_nl table_bytes).map (fun s => u16le s.length ++ s)).flatten

/-- `export_graph.export`: the full byte stream written to `walk_graph.bin`,
in the order of the `f.write` calls. -/
def export_bin (d : NpzData) : List Nat :=
  [0x43, 0x53, 0x52, 0x47] ++
    u32le (match d.v2 with | some _ => 2 | none => 1) ++
    u32le d.node_ids.length ++
    u32le d.adj_targets.length ++
    List.replicate 16 0 ++
    (d.node_ids.map i64le).flatten ++
    (d.node_lats.map u32le).flatten ++
    (d.node_lons.map u32le).flatten ++
    (d.adj_offsets.map i32le).flatten ++
    (d.adj_targets.map i32le).flatten ++
    (d.adj_weights.map u32le).flatten ++
    (match d.v2 with
     | none => []
     | some v =>
       (v.edge_name_indices.map u16le).flatten ++
         v.edge_highway_indices ++
         write_string_table v.name_table ++
         write_string_table v.highway_table)

/-- §6 header layout, written from the spec's table: magic `"CSRG"` in
ASCII, `uint32` version, node count, directed-edge-slot count, 16 zero
reserved bytes. -/
def spec_header (version num_nodes num_edges : Nat) : List Nat :=
  [0x43, 0x53, 0x52, 0x47] ++ u32le version ++ u32le num_nodes ++
    u32le num_edges ++ List.replicate 16 0

/-- §6 payload: the six arrays in order, tightly packed. -/
def spec_payload (d : NpzData) : List Nat :=
  (d.node_ids.map i64le).flatten ++
    (d.node_lats.map u32le).flatten ++
    (d.node_lons.map u32le).flatten ++
    (d.adj_offsets.map i32le).flatten ++
    (d.adj_targets.map i32le).flatten ++
    (d.adj_weights.map u32le).flatten

/-- §6 v2-only sections: `edge_name_indices` (`uint16`),
`edge_highway_indices` (`uint8`), then the two length-prefixed string
tables. -/
def spec_v2_sections (v : NpzV2) : List Nat :=
  (v.edge_name_indices.map u16le).flatten ++ v.edge_highway_indices ++
    write_string_table v.name_table ++ write_string_table v.highway_table

/-!  Graph builder (`graph_builder.build_graph` lines 405–431 and
`_graph_to_compact`).  The intermediate `networkx.Graph` is a node list in
insertion order and an edge list in insertion order keyed by unordered
endpoint pair (`nx.Graph` stores one edge per pair; attribute updates mutate
in place).  `networkx` iterates edges grouped by node insertion order; the
final compact arrays do not depend on that order because every neighbor
slice is sorted by target afterwards (ties are identical slots), so the
insertion-ordered list is an equivalent iteration.  The geodesic `dist`
function is a parameter (the code passes `haversine`); the four parallel
slot arrays (`adj_targets`, `adj_weights`, `edge_name_indices`,
`edge_highway_indices`) are one list of 4-tuples, written and sorted
jointly exactly as the code writes and `argsort`s them. -/

/-- A `networkx` node with its `lat`/`lon` attributes. -/
abbrev NodeRow : Type := Int × ℚ × ℚ

/-- A `networkx` edge `(u, v)` with `weight`, `name`, `highway`. -/
abbrev EdgeRow : Type := Int × Int × ℚ × String × String

/-- One directed CSR slot: target, weight, name index, highway index. -/
abbrev Slot : Type := Nat × ℚ × Nat × Nat

/-- The intermediate `nx.Graph`. -/
structure NXGraph where
  nodes : List NodeRow
  edges : List EdgeRow

/-- `nx_graph.has_node(n)`. -/
def NXGraph.has_node (G : NXGraph) (n : Int) : Bool :=
  G.nodes.any (fun r => r.1 == n)

/-- `nx_graph.add_node(n, lat=…, lon=…)`. -/
def NXGraph.add_node (G : NXGraph) (n : Int) (lat lon : ℚ) : NXGraph :=
  { G with nodes := G.nodes ++ [(n, lat, lon)] }

/-- `nx_graph.has_edge(n1, n2)` (undirected). -/
def NXGraph.has_edge (G : NXGraph) (n1 n2 : Int) : Bool :=
  G.edges.any (fun e => (e.1 == n1 && e.2.1 == n2) || (e.1 == n2 && e.2.1 == n1))

/-- `nx_graph[n1][n2]["weight"]` (0 when absent — unreachable: only read
under `has_edge`). -/
def NXGraph.edge_weight (G : NXGraph) (n1 n2 : Int) : ℚ :=
  match G.edges.find? (fun e => (e.1 == n1 && e.2.1 == n2) || (e.1 == n2 && e.2.1 == n1)) with
  | some e => e.2.2.1
  | none => 0

/-- In-place update of the matching edge's `weight`/`name`/`highway`. -/
def NXGraph.set_edge (G : NXGraph) (n1 n2 : Int) (w : ℚ) (name hw : String) :
    NXGraph :=
  { G with edges := G.edges.map (fun e =>
      if (e.1 == n1 && e.2.1 == n2) || (e.1 == n2 && e.2.1 == n1) then
        (e.1, e.2.1, w, name, hw)
      else e) }

/-- `nx_graph.add_edge(n1, n2, weight=…, name=…, highway=…)`. -/
def NXGraph.add_edge (G : NXGraph) (n1 n2 : Int) (w : ℚ) (name hw : String) :
    NXGraph :=
  { G with edges := G.edges ++ [(n1, n2, w, name, hw)] }

/-- `node_coords` lookup. -/
def coord_of (coords : List NodeRow) (n : Int) : Option (ℚ × ℚ) :=
  (coords.find? (fun r => r.1 == n)).map (fun r => r.2)

/-- One consecutive node-ref pair `(n_i, n_{i+1})` of `build_graph`'s inner
loop (lines 410–430): both endpoints must have coordinates; parallel edges
keep the shorter weight; there is no check for `n1 == n2`. -/
def seg_step (dist : ℚ → ℚ → ℚ → ℚ → ℚ) (way_name way_highway : String)
    (coords : List NodeRow) (G : NXGraph) (n1 n2 : Int) : NXGraph :=
  match coord_of coords n1, coord_of coords n2 with
  | some (lat1, lon1), some (lat2, lon2) =>
    let d := dist lat1 lon1 lat2 lon2
    let G1 := if G.has_node n1 then G else G.add_node n1 lat1 lon1
    let G2 := if G1.has_node n2 then G1 else G1.add_node n2 lat2 lon2
    if G2.has_edge n1 n2 then
      if d < G2.edge_weight n1 n2 then G2.set_edge n1 n2 d way_name way_highway
      else G2
    else G2.add_edge n1 n2 d way_name way_highway
  | _, _ => G

/-- The consecutive pairs `(node_ids[i], node_ids[i+1])`. -/
def consecutive_pairs (l : List Int) : List (Int × Int) :=
  l.zip (l.drop 1)

/-- The edge-construction loop of `build_graph` over the collected walkable
ways `(node_refs, name, highway)`. -/
def build_nx (dist : ℚ → ℚ → ℚ → ℚ → ℚ)
    (ways : List (List Int × String × String)) (coords : List NodeRow) :
    NXGraph :=
  ways.foldl (fun G w =>
    (consecutive_pairs w.1).foldl
      (fun G2 p => seg_step dist w.2.1 w.2.2 coords G2 p.1 p.2) G)
    ⟨[], []⟩

/-- Insertion into a list sorted by ascending osm id (`sorted(..., key)`). -/
def insert_by_id (x : NodeRow) : List NodeRow → List NodeRow
  | [] => [x]
  | y :: ys => if x.1 < y.1 then x :: y :: ys else y :: insert_by_id x ys

/-- `sorted(G.nodes(data=True))` by osm id (stable; ids are distinct). -/
def sort_by_id (l : List NodeRow) : List NodeRow :=
  l.foldr insert_by_id []

/-- Sorted insertion of a string, skipping duplicates (the `set` plus
`sorted`). -/
def insert_str (x : String) : List String → List String
  | [] => [x]
  | y :: ys =>
    if x = y then y :: ys
    else if x < y then x :: y :: ys
    else y :: insert_str x ys

/-- `[""] + sorted(values - {""})`. -/
def string_table (vals : List String) : List String :=
  "" :: (vals.filter (fun v => v ≠ "")).foldr insert_str []

/-- `degrees[i] += 1`. -/
def bump (l : List Nat) (i : Nat) : List Nat :=
  l.set i (l.getD i 0 + 1)

/-- Stable insertion of a slot into a slice sorted by target index. -/
def insert_slot (x : Slot) : List Slot → List Slot
  | [] => [x]
  | y :: ys => if x.1 < y.1 then x :: y :: ys else y :: insert_slot x ys

/-- Sort one neighbor slice by target, carrying all four parallel values. -/
def sort_slot_list (l : List Slot) : List Slot :=
  l.foldr insert_slot []

/-- `l[s:e]`. -/
def slice_of {α : Type} (l : List α) (s e : Nat) : List α :=
  (l.drop s).take (e - s)

/-- The compact arrays produced by `_graph_to_compact` (`slots` zips the
four parallel edge arrays). -/
structure CompactData where
  node_ids : List Int
  node_lats : List ℚ
  node_lons : List ℚ
  adj_offsets : List Nat
  slots : List Slot
  name_table : List String
  highway_table : List String

/-- `adj_targets`. -/
def CompactData.adj_targets (c : CompactData) : List Nat :=
  c.slots.map (fun s => s.1)

/-- Write the two directed slots of one undirected edge at the endpoints'
cursors, advancing the cursors (lines 289–307 of `_graph_to_compact`). -/
def fill_edge (idx_of : Int → Nat) (name_idx hw_idx : String → Nat)
    (st : List Slot × List Nat) (e : EdgeRow) : List Slot × List Nat :=
  let u := idx_of e.1
  let v := idx_of e.2.1
  let w := e.2.2.1
  let ni := name_idx e.2.2.2.1
  let hi := hw_idx e.2.2.2.2
  let slots1 := st.1.set (st.2.getD u 0) (v, w, ni, hi)
  let cursor1 := st.2.set u (st.2.getD u 0 + 1)
  let slots2 := slots1.set (cursor1.getD v 0) (u, w, ni, hi)
  let cursor2 := cursor1.set v (cursor1.getD v 0 + 1)
  (slots2, cursor2)

/-- `graph_builder._graph_to_compact`. -/
def graph_to_compact (G : NXGraph) : CompactData :=
  let nodes := sort_by_id G.nodes
  let ids := nodes.map (fun r => r.1)
  let idx_of : Int → Nat := fun n => (ids.findIdx? (· == n)).getD 0
  let name_list := string_table (G.edges.map (fun e => e.2.2.2.1))
  let hw_list := string_table (G.edges.map (fun e => e.2.2.2.2))
  let name_idx : String → Nat := fun s => (name_list.findIdx? (· == s)).getD 0
  let hw_idx : String → Nat := fun s => (hw_list.findIdx? (· == s)).getD 0
  let degrees := G.edges.foldl
    (fun d e => bump (bump d (idx_of e.1)) (idx_of e.2.1))
    (List.replicate nodes.length 0)
  let offsets := List.scanl (· + ·) 0 degrees
  let num_slots := offsets.getLastD 0
  let filled := G.edges.foldl (fill_edge idx_of name_idx hw_idx)
    (List.replicate num_slots ((0, 0, 0, 0) : Slot), offsets.dropLast)
  let sorted := ((List.range nodes.length).map (fun i =>
    sort_slot_list (slice_of filled.1 (offsets.getD i 0) (offsets.getD (i + 1) 0)))).flatten
  { node_ids := ids
    node_lats := nodes.map (fun r => r.2.1)
    node_lons := nodes.map (fun r => r.2.2)
    adj_offsets := offsets
    slots := sorted
    name_table := name_list
    highway_table := hw_list }

/-- `build_graph` from collected ways to the compact arrays. -/
def build_graph_compact (dist : ℚ → ℚ → ℚ → ℚ → ℚ)
    (ways : List (List Int × String × String)) (coords : List NodeRow) :
    CompactData :=
  graph_to_compact (build_nx dist ways coords)

/-!  A*: soundness of the search loops.  `shortest_path`'s returned distance
is a lower bound on the length of every source-to-target path when the
heuristic is consistent (spec S4: edge weights dominate the haversine
heuristic, which vanishes at the target), and `_penalized_astar`'s returned
path is a genuine source-to-target path measured with unpenalized weights.
Together these give C10's `overhead ≥ 0`. -/

/-- `g_score[v]` (`none` = `np.inf`). -/
def gs_at (st : AState) (v : Nat) : Option ℚ := st.g_score.getD v none

/-- `came_from[v]` (`none` = `-1`). -/
def cf_at (st : AState) (v : Nat) : Option Nat := st.came_from.getD v none

/-- A directed CSR slot from `u` to `v` exists. -/
def is_edge (g : CompactGraph) (u v : Nat) : Prop :=
  ∃ w, (v, w) ∈ g.neighbors u

/-- A path of node indices from `src` to `tgt` along CSR slots. -/
def valid_path (g : CompactGraph) (src tgt : Nat) (l : List Nat) : Prop :=
  l ≠ [] ∧ l.head? = some src ∧ l.getLast? = some tgt ∧ List.Chain' (is_edge g) l

/-- All edge weights are nonnegative (spec: geodesic lengths). -/
def nonneg_weights (g : CompactGraph) : Prop :=
  ∀ u vw, vw ∈ g.neighbors u → 0 ≤ vw.2

/-- Slot targets are in range (part of the graph's well-formedness). -/
def wf_graph (g : CompactGraph) : Prop :=
  ∀ u vw, vw ∈ g.neighbors u → vw.1 < g.node_ids.length

/-- The haversine heuristic is consistent towards `tgt`: it is dominated by
one edge weight plus the heuristic at the edge's head (spec S4 — edge
weights are the haversine of their endpoints and the great-circle distance
satisfies the triangle inequality). -/
def consistent_h (g : CompactGraph) (tgt : Nat) : Prop :=
  ∀ u vw, vw ∈ g.neighbors u → g.hdist u tgt ≤ vw.2 + g.hdist vw.1 tgt

/-- An open entry for node `v` at the node's current `g_score` (its pop
would pass the stale check). -/
def live (st : AState) (v : Nat) : Prop :=
  ∃ e ∈ st.open_set, e.2.2.2 = v ∧ gs_at st v = some e.2.1

/-- All of `v`'s outgoing slots are relaxed at `v`'s current `g_score`. -/
def closed_node (g : CompactGraph) (st : AState) (v : Nat) : Prop :=
  ∃ gv, gs_at st v = some gv ∧
    ∀ vw ∈ g.neighbors v, ∃ gw, gs_at st vw.1 = some gw ∧ gw ≤ gv + vw.2

/-- The A* loop invariant of `shortest_path`. -/
def sp_inv (g : CompactGraph) (src tgt : Nat) (st : AState) : Prop :=
  st.g_score.length = g.node_ids.length ∧
  st.came_from.length = g.node_ids.length ∧
  gs_at st src = some 0 ∧
  (∀ v q, gs_at st v = some q → 0 ≤ q) ∧
  (∀ e ∈ st.open_set, e.2.2.2 < g.node_ids.length ∧
    (∃ q, gs_at st e.2.2.2 = some q ∧ q ≤ e.2.1) ∧
    (e.1 = e.2.1 + g.hdist e.2.2.2 tgt ∨ (e.2.2.2 = src ∧ e.1 = 0 ∧ e.2.1 = 0)) ∧
    0 ≤ e.2.1) ∧
  (∀ v, v < g.node_ids.length → gs_at st v ≠ none →
    live st v ∨ closed_node g st v) ∧
  (gs_at st tgt ≠ none → live st tgt) ∧
  (∀ v u, cf_at st v = some u →
    u < g.node_ids.length ∧ is_edge g u v ∧ gs_at st v ≠ none ∧ gs_at st u ≠ none) ∧
  (∀ v, v < g.node_ids.length → v ≠ src → gs_at st v ≠ none → cf_at st v ≠ none)

/-- The (partial-correctness) invariant of `_penalized_astar`'s loop: enough
to show that a reconstructed path is a genuine path. -/
def pen_inv (g : CompactGraph) (src : Nat) (st : AState) : Prop :=
  st.g_score.length = g.node_ids.length ∧
  st.came_from.length = g.node_ids.length ∧
  (∀ e ∈ st.open_set, e.2.2.2 < g.node_ids.length ∧ gs_at st e.2.2.2 ≠ none) ∧
  (∀ v u, cf_at st v = some u →
    u < g.node_ids.length ∧ is_edge g u v ∧ gs_at st v ≠ none ∧ gs_at st u ≠ none) ∧
  (∀ v, v < g.node_ids.length → v ≠ src → gs_at st v ≠ none → cf_at st v ≠ none)

/-- The bundle carried through one relaxation pass from a popped node
`cur` (whose own live entry has just been removed). -/
def relax_pre (g : CompactGraph) (src tgt cur : Nat) (gval : ℚ)
    (st : AState) : Prop :=
  st.g_score.length = g.node_ids.length ∧
  st.came_from.length = g.node_ids.length ∧
  gs_at st src = some 0 ∧
  (∀ v q, gs_at st v = some q → 0 ≤ q) ∧
  (∀ e ∈ st.open_set, e.2.2.2 < g.node_ids.length ∧
    (∃ q, gs_at st e.2.2.2 = some q ∧ q ≤ e.2.1) ∧
    (e.1 = e.2.1 + g.hdist e.2.2.2 tgt ∨ (e.2.2.2 = src ∧ e.1 = 0 ∧ e.2.1 = 0)) ∧
    0 ≤ e.2.1) ∧
  (∀ v, v < g.node_ids.length → v ≠ cur → gs_at st v ≠ none →
    live st v ∨ closed_node g st v) ∧
  (gs_at st tgt ≠ none → live st tgt) ∧
  (∀ v u, cf_at st v = some u →
    u < g.node_ids.length ∧ is_edge g u v ∧ gs_at st v ≠ none ∧ gs_at st u ≠ none) ∧
  (∀ v, v < g.node_ids.length → v ≠ src → gs_at st v ≠ none → cf_at st v ≠ none) ∧
  gs_at st cur = some gval

/-- `compute_novelty` against an empty walked set is 1. -/
theorem compute_novelty_nil (edges : List (Int × Int)) :
    compute_novelty edges [] = 1 := by
  unfold compute_novelty
  rcases eq_or_ne edges [] with h | h
  · simp [h]
  · have hlen : (edges.length : ℚ) ≠ 0 := by
      have : edges.length ≠ 0 := fun hl => h (List.length_eq_zero.mp hl)
      exact_mod_cast this
    simp only [h, if_neg h, List.contains_nil, Bool.not_false, List.filter_true]
    exact div_self hlen

/-- The fields of every `_build_result` dictionary are computed from the
path, the unpenalized distance and the supplied walked set. -/
theorem build_result_fields (p : List Int) (d base : ℚ) (walked : List (Int × Int)) :
    (build_result p d base walked).edges = path_to_edges (build_result p d base walked).path ∧
    (build_result p d base walked).novelty =
      compute_novelty (build_result p d base walked).edges walked ∧
    (build_result p d base walked).overhead =
      (if 0 < (build_result p d base walked).shortest_distance then
        ((build_result p d base walked).distance -
          (build_result p d base walked).shortest_distance) /
            (build_result p d base walked).shortest_distance
      else 0) :=
  ⟨rfl, rfl, rfl⟩

/-- Every `best_result` carried through the bisection loop is (`none` or) a
`_build_result` of some penalized-search output at the baseline distance. -/
theorem bis_loop_preserve (g : CompactGraph) (s t : Int)
    (walked : List (Int × Int)) (mn mo base : ℚ) (Q : Option RouteResult → Prop)
    (hq : ∀ pf p d, penalized_astar g s t walked pf = .ok (some (p, d)) →
      Q (some (build_result p d base walked))) :
    ∀ n lo hi bn0 br0, Q br0 → ∀ bn br,
      bis_loop g s t walked mn mo base n (lo, hi, bn0, br0) = .ok (bn, br) → Q br := by
  intro n
  induction n with
  | zero =>
    intro lo hi bn0 br0 hst bn br h
    simp only [bis_loop] at h
    cases h
    exact hst
  | succ n ih =>
    intro lo hi bn0 br0 hst bn br h
    simp only [bis_loop] at h
    split at h
    next e heq => exact absurd h (by simp)
    next heq => exact ih _ _ _ _ hst _ _ h
    next p d heq =>
      by_cases hcond : (if 0 < base then (d - base) / base else 0) ≤ mo ∧
          bn0 < compute_novelty (path_to_edges p) walked
      · rw [if_pos hcond] at h
        exact ih _ _ _ _ (hq _ _ _ heq) _ _ h
      · rw [if_neg hcond] at h
        exact ih _ _ _ _ hst _ _ h

/-- Every `best_result` carried through the fallback sweep is (`none` or) a
`_build_result` of some penalized-search output at the baseline distance. -/
theorem fb_loop_preserve (g : CompactGraph) (s t : Int)
    (walked : List (Int × Int)) (mo base : ℚ) (Q : Option RouteResult → Prop)
    (hq : ∀ pf p d, penalized_astar g s t walked pf = .ok (some (p, d)) →
      Q (some (build_result p d base walked))) :
    ∀ pens bn0 br0, Q br0 → ∀ bn br,
      fb_loop g s t walked mo base pens (bn0, br0) = .ok (bn, br) → Q br := by
  intro pens
  induction pens with
  | nil =>
    intro bn0 br0 h0 bn br h
    simp only [fb_loop] at h
    cases h
    exact h0
  | cons pn rest ih =>
    intro bn0 br0 h0 bn br h
    simp only [fb_loop] at h
    split at h
    next e heq => exact absurd h (by simp)
    next heq => exact ih _ _ h0 _ _ h
    next p d heq =>
      by_cases hcond : (if 0 < base then (d - base) / base else 0) ≤ mo ∧
          bn0 < compute_novelty (path_to_edges p) walked
      · rw [if_pos hcond] at h
        exact ih _ _ (hq _ _ _ heq) _ _ h
      · rw [if_neg hcond] at h
        exact ih _ _ h0 _ _ h

/-- Whatever `novelty_route` returns went through `_build_result` at the
baseline distance: helper dissecting the phase structure. -/
theorem novelty_route_shape (g : CompactGraph) (s t : Int)
    (walked : List (Int × Int)) (mn mo : ℚ) (r : RouteResult)
    (Q : Option RouteResult → Prop)
    (h : novelty_route g s t walked mn mo = .ok (some r)) :
    ∀ bp bd, shortest_path g s t = .ok (some (bp, bd)) →
      (∀ pf p d, penalized_astar g s t walked pf = .ok (some (p, d)) →
        Q (some (build_result p d bd walked))) →
      Q (some (build_result bp bd bd walked)) → Q (some r) := by
  intro bp bd hsp hq hbase
  unfold novelty_route at h
  split at h
  next e heq => rw [hsp] at heq; exact absurd heq (by simp)
  next heq => exact absurd h (by simp)
  next bp' bd' heq =>
  rw [hsp] at heq
  simp only [Except.ok.injEq, Option.some.injEq, Prod.mk.injEq] at heq
  obtain ⟨h3, h4⟩ := heq
  subst h3
  subst h4
  by_cases h1 : mn ≤ compute_novelty (path_to_edges bp) walked
  · rw [if_pos h1] at h
    cases h
    exact hbase
  · rw [if_neg h1] at h
    by_cases h2 : walked = []
    · rw [if_pos h2] at h
      cases h
      exact hbase
    · rw [if_neg h2] at h
      split at h
      next e hup => exact absurd h (by simp)
      next hi hup =>
        split at h
        next e hbis => exact absurd h (by simp)
        next bn br hbis =>
          have hbr : br = none ∨ ∃ r', br = some r' ∧ Q (some r') :=
            bis_loop_preserve g s t walked mn mo bd
              (fun o => o = none ∨ ∃ r', o = some r' ∧ Q (some r'))
              (fun pf p d hp => Or.inr ⟨_, rfl, hq pf p d hp⟩) 10
              1 hi (compute_novelty (path_to_edges bp) walked) none
              (Or.inl rfl) bn br hbis
          have hfb : ∀ pens bn0 br0, (br0 = none ∨ ∃ r', br0 = some r' ∧ Q (some r')) →
              ∀ bn1 br1, fb_loop g s t walked mo bd pens (bn0, br0) = .ok (bn1, br1) →
              br1 = none ∨ ∃ r', br1 = some r' ∧ Q (some r') :=
            fun pens bn0 br0 h0 bn1 br1 hrun =>
              fb_loop_preserve g s t walked mo bd
                (fun o => o = none ∨ ∃ r', o = some r' ∧ Q (some r'))
                (fun pf p d hp => Or.inr ⟨_, rfl, hq pf p d hp⟩) pens bn0 br0 h0 bn1 br1 hrun

          split at h
          next =>
            split at h
            next e hrun => exact absurd h (by simp)
            next bn1 hrun =>
              cases h
              exact hbase
            next bn1 r1 hrun =>
              rcases hfb _ _ _ (Or.inl rfl) _ _ hrun with h3 | ⟨r', h3, h4⟩
              · exact absurd h3 (by simp)
              · obtain rfl : r1 = r' := by injection h3
                cases h
                exact h4
          next r0 =>
            rcases hbr with h3 | ⟨r', h3, h4⟩
            · exact absurd h3 (by simp)
            · obtain rfl : r0 = r' := by injection h3
              by_cases h5 : r0.novelty < mn
              · rw [if_pos h5] at h
                split at h
                next e hrun => exact absurd h (by simp)
                next bn1 hrun =>
                  cases h
                  exact hbase
                next bn1 r1 hrun =>
                  rcases hfb _ _ _ (Or.inr ⟨r0, rfl, h4⟩) _ _ hrun with h6 | ⟨r'', h6, h7⟩
                  · exact absurd h6 (by simp)
                  · obtain rfl : r1 = r'' := by injection h6
                    cases h
                    exact h7
              · rw [if_neg h5] at h
                cases h
                exact h4

/-- C1: with an empty walked set, `novelty_route` returns the baseline
shortest path with its distance, novelty 1.0 and overhead 0.0. -/
theorem novelty_route_empty_walked (g : CompactGraph) (a b : Int) (mn mo : ℚ)
    (p : List Int) (d : ℚ) (h : shortest_path g a b = .ok (some (p, d))) :
    novelty_route g a b [] mn mo =
      .ok (some { path := p, edges := path_to_edges p, distance := d,
                  shortest_distance := d, novelty := 1, overhead := 0 }) := by
  have hbr : build_result p d d [] =
      { path := p, edges := path_to_edges p, distance := d,
        shortest_distance := d, novelty := 1, overhead := 0 } := by
    unfold build_result
    simp [compute_novelty_nil]
  unfold novelty_route
  split
  next e heq => rw [h] at heq; exact absurd heq (by simp)
  next heq => rw [h] at heq; exact absurd heq (by simp)
  next bp bd heq =>
  rw [h] at heq
  simp only [Except.ok.injEq, Option.some.injEq, Prod.mk.injEq] at heq
  obtain ⟨h3, h4⟩ := heq
  subst h3
  subst h4
  simp only [compute_novelty_nil]
  split_ifs with h1
  · rw [hbr]
  · rw [hbr]

/-- Witness for C1 on the triangle graph. -/
theorem novelty_route_empty_walked_witness :
    novelty_route tri 1 3 [] (3/10) (1/4) =
      .ok (some { path := [1, 3], edges := [(1, 3)], distance := wA,
                  shortest_distance := wA, novelty := 1, overhead := 0 }) :=
  novelty_route_empty_walked tri 1 3 (3/10) (1/4) [1, 3] wA (by decide!)

/-- C2 (corrected): on the triangle, after walking edge (1, 3),
`novelty_route(1, 3, min_novelty=0.5, max_overhead=1.5)` detours via node 2
with novelty 1.0, distance ≈ 268.45 m and overhead ≈ 1.41421 — the code's
haversine uses `R = 6371000`, so the spec scenario's `≈ 268.75` figure (an
`R = 6378137` value) is not what the program returns; with
`max_overhead = 0.25` it falls back to the baseline `[1, 3]` with novelty
0.0. -/
theorem novelty_route_triangle_scenario :
    (novelty_route tri 1 3 [(1, 3)] (1/2) (3/2) =
      .ok (some { path := [1, 2, 3], edges := [(1, 2), (2, 3)],
                  distance := wA + wB, shortest_distance := wA,
                  novelty := 1, overhead := wB / wA }) ∧
      26844/100 < wA + wB ∧ wA + wB < 26845/100 ∧
      14142/10000 < wB / wA ∧ wB / wA < 14143/10000) ∧
    novelty_route tri 1 3 [(1, 3)] (1/2) (1/4) =
      .ok (some { path := [1, 3], edges := [(1, 3)],
                  distance := wA, shortest_distance := wA,
                  novelty := 0, overhead := 0 }) := by
  refine ⟨⟨by decide!, by decide!, by decide!, by decide!, by decide!⟩, by decide!⟩

/-- C2 counterexample: the very `novelty_route` call of scenario S2 reports
a distance strictly below the spec's pinned figure — `wA + wB < 268.74`,
refuting `distance ≈ 268.75` (a number computed with Earth radius 6378137
where the code uses 6371000). -/
theorem novelty_route_triangle_distance_gap :
    novelty_route tri 1 3 [(1, 3)] (1/2) (3/2) =
      .ok (some { path := [1, 2, 3], edges := [(1, 2), (2, 3)],
                  distance := wA + wB, shortest_distance := wA,
                  novelty := 1, overhead := wB / wA }) ∧
    wA + wB < 26874/100 := by
  exact ⟨by decide!, by decide!⟩

/-- C3: the penalized search reports the unpenalized `_path_distance` of its
returned index path (trivially `0` on the single-node path), and every
`novelty_route` result reports novelty and overhead computed from its own
path (unpenalized weights) and the supplied walked set — the penalty factor
appears in neither formula. -/
theorem penalized_true_distance_and_reported_figures
    (g : CompactGraph) (s t : Int) (walked : List (Int × Int)) (pfac mn mo : ℚ) :
    penalized_astar g s s walked pfac = .ok (some ([s], 0)) ∧
    (s ≠ t → ∀ p d, penalized_astar g s t walked pfac = .ok (some (p, d)) →
      ∃ idxs : List Nat, p = idxs.map (osm_of g) ∧ d = path_distance g idxs) ∧
    (∀ r, novelty_route g s t walked mn mo = .ok (some r) →
      r.edges = path_to_edges r.path ∧
      r.novelty = compute_novelty r.edges walked ∧
      r.overhead = (if 0 < r.shortest_distance then
        (r.distance - r.shortest_distance) / r.shortest_distance else 0)) := by
  refine ⟨by simp [penalized_astar], ?_, ?_⟩
  · intro hne p d h
    unfold penalized_astar at h
    rw [if_neg hne] at h
    split at h
    next si ti =>
      split at h
      next hloop => exact absurd h (by simp)
      next idxs hloop =>
        simp only [Except.ok.injEq, Option.some.injEq, Prod.mk.injEq] at h
        exact ⟨idxs, h.1.symm, h.2.symm⟩
    all_goals exact absurd h (by simp)
  · intro r h
    have hsp : ∃ bp bd, shortest_path g s t = .ok (some (bp, bd)) := by
      have h2 := h
      unfold novelty_route at h2
      split at h2
      next e heq => exact absurd h2 (by simp)
      next heq => exact absurd h2 (by simp)
      next bp bd heq => exact ⟨bp, bd, heq⟩
    obtain ⟨bp, bd, hsp⟩ := hsp
    have key : ∀ p0 d0 b0, (fun o => ∀ r', o = some r' →
        r'.edges = path_to_edges r'.path ∧
        r'.novelty = compute_novelty r'.edges walked ∧
        r'.overhead = (if 0 < r'.shortest_distance then
          (r'.distance - r'.shortest_distance) / r'.shortest_distance else 0))
        (some (build_result p0 d0 b0 walked)) := by
      intro p0 d0 b0 r' hr'
      obtain rfl : build_result p0 d0 b0 walked = r' := by injection hr'
      exact build_result_fields p0 d0 b0 walked
    exact novelty_route_shape g s t walked mn mo r
      (fun o => ∀ r', o = some r' →
        r'.edges = path_to_edges r'.path ∧
        r'.novelty = compute_novelty r'.edges walked ∧
        r'.overhead = (if 0 < r'.shortest_distance then
          (r'.distance - r'.shortest_distance) / r'.shortest_distance else 0))
      h bp bd hsp (fun pf p d _ => key p d bd) (key bp bd bd) r rfl

/-- Witness for C3 on the triangle graph: a concrete penalized run and a
concrete `novelty_route` run discharging both hypotheses. -/
theorem penalized_true_distance_witness :
    ((1 : Int) ≠ 3 ∧
      penalized_astar tri 1 3 [(1, 3)] 10 = .ok (some ([1, 2, 3], wA + wB))) ∧
    ∃ idxs : List Nat, [(1 : Int), 2, 3] = idxs.map (osm_of tri) ∧
      wA + wB = path_distance tri idxs := by
  refine ⟨⟨by decide, by decide!⟩, ?_⟩
  exact (penalized_true_distance_and_reported_figures tri 1 3 [(1, 3)] 10 (1/2)
    (3/2)).2.1 (by decide) [1, 2, 3] (wA + wB) (by decide!)

/-- C9: `shortest_path(G, a, a)` returns `([a], 0.0)` for every osm id `a`
and every graph — the identity check precedes the id-to-index lookups, so
`UnknownNode` can only arise when source and target differ. -/
theorem shortest_path_self (g : CompactGraph) (a : Int) :
    shortest_path g a a = .ok (some ([a], 0)) := by
  simp [shortest_path]

/-- The canonical key is symmetric in its endpoints. -/
theorem edge_key_comm (a b : Int) : edge_key b a = edge_key a b := by
  unfold edge_key
  rw [min_comm, max_comm]

/-- Row lookup through a `cons`. -/
theorem get_count_cons (r : (Int × Int) × Nat × String) (rest : Store)
    (k : Int × Int) :
    get_count (r :: rest) k = if (r.1 == k) = true then r.2.1 else get_count rest k := by
  by_cases h : (r.1 == k) = true
  · simp [get_count, List.find?_cons, h]
  · simp [get_count, List.find?_cons, h]

/-- Upserting key `k` increments the row of `k` by one. -/
theorem get_count_upsert_same (k : Int × Int) (now : String) (st : Store) :
    get_count (upsert_row k now st) k = get_count st k + 1 := by
  unfold upsert_row
  by_cases hany : st.any (fun r => r.1 == k) = true
  · rw [if_pos hany]
    induction st with
    | nil => simp at hany
    | cons r rest ih =>
      by_cases hr : (r.1 == k) = true
      · rw [List.map_cons, if_pos hr, get_count_cons, get_count_cons,
          if_pos (by simp), if_pos hr]
      · have hrest : rest.any (fun r => r.1 == k) = true := by
          rcases List.any_eq_true.mp hany with ⟨x, hx, hpx⟩
          rcases List.mem_cons.mp hx with rfl | hx'
          · exact absurd hpx hr
          · exact List.any_eq_true.mpr ⟨x, hx', hpx⟩
        rw [List.map_cons, if_neg hr, get_count_cons, get_count_cons,
          if_neg hr, if_neg hr]
        exact ih hrest
  · rw [if_neg hany]
    induction st with
    | nil => simp [get_count_cons, get_count]
    | cons r rest ih =>
      have hr : ¬(r.1 == k) = true := by
        intro hc
        exact hany (List.any_eq_true.mpr ⟨r, by simp, hc⟩)
      have hrest : ¬rest.any (fun r => r.1 == k) = true := by
        intro hc
        rcases List.any_eq_true.mp hc with ⟨x, hx, hpx⟩
        exact hany (List.any_eq_true.mpr ⟨x, List.mem_cons_of_mem _ hx, hpx⟩)
      rw [List.cons_append, get_count_cons, get_count_cons, if_neg hr, if_neg hr]
      exact ih hrest

/-- Upserting key `k` leaves every other row unchanged. -/
theorem get_count_upsert_other (k k' : Int × Int) (now : String) (st : Store)
    (hne : k' ≠ k) : get_count (upsert_row k now st) k' = get_count st k' := by
  have hkk' : ¬(((k, (1 : Nat), now) : (Int × Int) × Nat × String).1 == k') = true := by
    simp only [beq_iff_eq]
    exact fun h => hne h.symm
  unfold upsert_row
  by_cases hany : st.any (fun r => r.1 == k) = true
  · rw [if_pos hany]
    clear hany
    induction st with
    | nil => rfl
    | cons r rest ih =>
      by_cases hr : (r.1 == k) = true
      · have hrk : r.1 = k := by simpa using hr
        rw [List.map_cons, if_pos hr, get_count_cons, get_count_cons,
          if_neg (by simpa using hkk'), if_neg (by rw [hrk]; simpa using hkk')]
        exact ih
      · rw [List.map_cons, if_neg hr, get_count_cons, get_count_cons]
        by_cases hk2 : (r.1 == k') = true
        · rw [if_pos hk2, if_pos hk2]
        · rw [if_neg hk2, if_neg hk2]
          exact ih
  · rw [if_neg hany]
    clear hany
    induction st with
    | nil => simp [get_count_cons, get_count, List.find?, hkk']
    | cons r rest ih =>
      rw [List.cons_append, get_count_cons, get_count_cons]
      by_cases hk2 : (r.1 == k') = true
      · rw [if_pos hk2, if_pos hk2]
      · rw [if_neg hk2, if_neg hk2]
        exact ih

/-- `record_walk` adds to each row exactly the number of recorded edges whose
canonical key is that row's key. -/
theorem get_count_record_walk (now : String) (route_edges : List (Int × Int))
    (st : Store) (k : Int × Int) :
    get_count (record_walk now route_edges st) k =
      get_count st k + count_key route_edges k := by
  induction route_edges generalizing st with
  | nil => simp [record_walk, count_key]
  | cons e rest ih =>
    have hstep : record_walk now (e :: rest) st =
        record_walk now rest (upsert_row (edge_key e.1 e.2) now st) := rfl
    rw [hstep, ih]
    by_cases hk : edge_key e.1 e.2 = k
    · rw [hk, get_count_upsert_same]
      have : count_key (e :: rest) k = count_key rest k + 1 := by
        simp [count_key, List.filter, hk]
      omega
    · rw [get_count_upsert_other _ _ _ _ (fun h => hk h.symm)]
      have : count_key (e :: rest) k = count_key rest k := by
        simp only [count_key, List.filter, (by simpa using hk : (edge_key e.1 e.2 == k) = false)]
      omega

/-- In a duplicate-free list of canonical edges, each edge's key occurs
exactly once. -/
theorem count_key_nodup (route_edges : List (Int × Int))
    (hcanon : ∀ x ∈ route_edges, x.1 ≤ x.2) (hnd : route_edges.Nodup)
    (e : Int × Int) (he : e ∈ route_edges) : count_key route_edges e = 1 := by
  have hkey : ∀ x ∈ route_edges, edge_key x.1 x.2 = x := by
    intro x hx
    have := hcanon x hx
    unfold edge_key
    rw [min_eq_left this, max_eq_right this]
  induction route_edges with
  | nil => cases he
  | cons x rest ih =>
    rcases List.mem_cons.mp he with rfl | hmem
    · have hx : edge_key e.1 e.2 = e := hkey e (by simp)
      have hrest : count_key rest e = 0 := by
        simp only [count_key, List.length_eq_zero, List.filter_eq_nil_iff]
        intro a ha
        have hae : edge_key a.1 a.2 = a := hkey a (List.mem_cons_of_mem _ ha)
        have : a ≠ e := fun h => (List.nodup_cons.mp hnd).1 (h ▸ ha)
        simp [hae, this]
      have hrest0 : (rest.filter (fun a => edge_key a.1 a.2 == e)).length = 0 := hrest
      simp [count_key, List.filter_cons, hx, hrest0]
    · have hxe : x ≠ e := fun h => (List.nodup_cons.mp hnd).1 (h ▸ hmem)
      have hx : edge_key x.1 x.2 = x := hkey x (by simp)
      have : count_key (x :: rest) e = count_key rest e := by
        simp only [count_key, List.filter, hx,
          (by simpa using hxe : (x == e) = false)]
      rw [this]
      exact ih (fun y hy => hcanon y (List.mem_cons_of_mem _ hy))
        (List.nodup_cons.mp hnd).2 hmem (fun y hy => hkey y (List.mem_cons_of_mem _ hy))

/-- C5: recording `(a, b)` makes `is_walked(b, a)` true with
`get_walk_count(b, a) = 1` on a fresh store (swapped endpoints address the
same row), and recording a duplicate-free list of canonical edges twice adds
exactly 2 to each of its edges' walk counts. -/
theorem walk_history_canonical :
    (∀ (a b : Int) (now : String),
      is_walked (record_walk now [(a, b)] []) b a = true ∧
      get_walk_count (record_walk now [(a, b)] []) b a = 1) ∧
    (∀ (route_edges : List (Int × Int)) (st : Store) (t1 t2 : String)
      (e : Int × Int), (∀ x ∈ route_edges, x.1 ≤ x.2) → route_edges.Nodup →
      e ∈ route_edges →
      get_walk_count (record_walk t2 route_edges (record_walk t1 route_edges st))
          e.1 e.2 =
        get_walk_count st e.1 e.2 + 2) := by
  constructor
  · intro a b now
    have hk : edge_key b a = edge_key a b := edge_key_comm a b
    constructor
    · simp [record_walk, upsert_row, is_walked, hk]
    · simp [record_walk, upsert_row, get_walk_count, hk, get_count, List.find?]
  · intro route_edges st t1 t2 e hcanon hnd he
    have hck := count_key_nodup route_edges hcanon hnd e he
    have hek : edge_key e.1 e.2 = e := by
      have := hcanon e he
      unfold edge_key
      rw [min_eq_left this, max_eq_right this]
    unfold get_walk_count
    rw [hek, get_count_record_walk, get_count_record_walk, hck]

/-- Witness for C5: two distinct canonical edges recorded twice on the empty
store; edge `(1, 2)` ends with walk count 2. -/
theorem walk_history_canonical_witness :
    get_walk_count (record_walk "t2" [((1 : Int), 2), (3, 4)]
        (record_walk "t1" [((1 : Int), 2), (3, 4)] [])) 1 2 =
      get_walk_count ([] : Store) 1 2 + 2 :=
  walk_history_canonical.2 [(1, 2), (3, 4)] [] "t1" "t2" (1, 2)
    (by decide) (by decide) (by decide)

/-- `normalize_angle` is the identity inside `[-180, 180]`. -/
theorem normalize_angle_of_mem (a : ℚ) (h1 : ¬180 < a) (h2 : ¬a < -180) :
    normalize_angle a = a := by
  unfold normalize_angle
  rw [dif_neg h1, dif_neg h2]

/-- One step of the downward normalization loop. -/
theorem normalize_angle_of_gt (a : ℚ) (h1 : 180 < a) :
    normalize_angle a = normalize_angle (a - 360) := by
  conv_lhs => unfold normalize_angle
  rw [dif_pos h1]

/-- C6: the spec's turn table at the two pinned boundaries — exit 10°,
entry 95° gives angle +85°, class `right` and text `"Turn right onto …"`;
exit 10°, entry 355° gives angle −15°, class `slight_left` and
`"Turn slight left onto …"`. -/
theorem turn_classification_cases :
    (∀ name : String,
      turn_step 10 95 name = (85, "right", "Turn right onto " ++ name)) ∧
    (∀ name : String,
      turn_step 10 355 name = (-15, "slight_left", "Turn slight left onto " ++ name)) := by
  have h85 : normalize_angle ((95 : ℚ) - 10) = 85 := by
    rw [show (95 : ℚ) - 10 = 85 by norm_num,
      normalize_angle_of_mem 85 (by norm_num) (by norm_num)]
  have h15 : normalize_angle ((355 : ℚ) - 10) = -15 := by
    rw [show (355 : ℚ) - 10 = 345 by norm_num,
      normalize_angle_of_gt 345 (by norm_num),
      show (345 : ℚ) - 360 = -15 by norm_num,
      normalize_angle_of_mem (-15) (by norm_num) (by norm_num)]
  have hc85 : classify_turn 85 = "right" := by
    unfold classify_turn
    norm_num
  have hc15 : classify_turn (-15) = "slight_left" := by
    unfold classify_turn
    norm_num
  constructor
  · intro name
    unfold turn_step
    rw [h85]
    simp only [hc85]
    rw [if_neg (show ¬("right" = "straight") from by decide)]
    rfl
  · intro name
    unfold turn_step
    rw [h15]
    simp only [hc15]
    rw [if_neg (show ¬("slight_left" = "straight") from by decide)]
    rfl

/-- The haversine kernel `a` is symmetric in the two points. -/
theorem hav_a_symm (lat1 lon1 lat2 lon2 : ℝ) :
    hav_a lat1 lon1 lat2 lon2 = hav_a lat2 lon2 lat1 lon1 := by
  unfold hav_a
  have k : ∀ u v : ℝ,
      Real.sin (radians (u - v) / 2) ^ 2 = Real.sin (radians (v - u) / 2) ^ 2 := by
    intro u v
    have h : radians (u - v) / 2 = -(radians (v - u) / 2) := by
      unfold radians
      ring
    rw [h, Real.sin_neg, neg_sq]
  rw [k lat2 lat1, k lon2 lon1]
  ring

/-- C7: `haversine` is symmetric, and exactly 0 on identical coordinates. -/
theorem haversine_symm_zero :
    (∀ lat1 lon1 lat2 lon2 : ℝ,
      haversine lat1 lon1 lat2 lon2 = haversine lat2 lon2 lat1 lon1) ∧
    (∀ lat lon : ℝ, haversine lat lon lat lon = 0) := by
  constructor
  · intro lat1 lon1 lat2 lon2
    unfold haversine
    rw [hav_a_symm]
  · intro lat lon
    have hzero : hav_a lat lon lat lon = 0 := by
      unfold hav_a radians
      simp
    unfold haversine
    rw [hzero, Real.sqrt_zero, sub_zero, Real.sqrt_one]
    have h01 : atan2 0 1 = 0 := by
      unfold atan2
      rw [if_pos one_pos]
      simp [Real.arctan_zero]
    rw [h01, mul_zero]

/-- C8: the export writes the 32-byte little-endian header (magic `"CSRG"`,
version 2 exactly when name/highway data is present and 1 otherwise, node
count, directed-slot count, 16 zero bytes), then the six tightly packed
arrays in order, then the four v2-only sections exactly when the version
is 2. -/
theorem export_layout (d : NpzData) :
    export_bin d =
      spec_header (if d.v2.isSome then 2 else 1) d.node_ids.length
          d.adj_targets.length ++
        spec_payload d ++
        (match d.v2 with | some v => spec_v2_sections v | none => []) ∧
    (spec_header (if d.v2.isSome then 2 else 1) d.node_ids.length
        d.adj_targets.length).length = 32 ∧
    (∀ n, (i64le n).length = 8) ∧ (∀ n, (i32le n).length = 4) ∧
    (∀ n, (u32le n).length = 4) ∧ (∀ n, (u16le n).length = 2) := by
  refine ⟨?_, ?_, fun n => rfl, fun n => rfl, fun n => rfl, fun n => rfl⟩
  · cases hv : d.v2 with
    | none =>
      simp [export_bin, spec_header, spec_payload, hv, List.append_assoc]
    | some v =>
      simp [export_bin, spec_header, spec_payload, spec_v2_sections, hv,
        List.append_assoc]
  · cases hv : d.v2 <;> rfl

/-- C4 fails on the code: a way `[1, 1, 2]` whose first segment is
degenerate (`n_i == n_{i+1}`, both endpoints in range) is NOT discarded —
`build_graph` has no such check, `nx.Graph.add_edge(1, 1)` records a
self-loop, and `_graph_to_compact` materializes it as two identical
directed slots, so node 1's (index 0's) neighbor slice is `[0, 0, 1]`:
it contains the node's own index and is not strictly ascending. -/
theorem self_loop_not_discarded :
    (build_graph_compact (fun _ _ _ _ => 0) [([1, 1, 2], "", "residential")]
        [(1, 0, 0), (2, 0, 1)]).adj_offsets = [0, 3, 4] ∧
    (build_graph_compact (fun _ _ _ _ => 0) [([1, 1, 2], "", "residential")]
        [(1, 0, 0), (2, 0, 1)]).adj_targets = [0, 0, 1, 0] ∧
    0 ∈ slice_of (build_graph_compact (fun _ _ _ _ => 0)
        [([1, 1, 2], "", "residential")] [(1, 0, 0), (2, 0, 1)]).adj_targets 0 3 := by
  refine ⟨by decide!, by decide!, by decide!⟩

/-- `entry_le` spelled out as an ordering proposition. -/
theorem entry_le_iff (a b : Entry) :
    entry_le a b = true ↔
      (a.1 < b.1 ∨ (a.1 = b.1 ∧ (a.2.1 < b.2.1 ∨ (a.2.1 = b.2.1 ∧
        (a.2.2.1 < b.2.2.1 ∨ (a.2.2.1 = b.2.2.1 ∧ a.2.2.2 ≤ b.2.2.2)))))) := by
  unfold entry_le
  rcases lt_trichotomy a.1 b.1 with h1 | h1 | h1
  · simp [h1, asymm h1, h1.ne]
  · rcases lt_trichotomy a.2.1 b.2.1 with h2 | h2 | h2
    · simp [h1, lt_irrefl, h2, asymm h2, h2.ne]
    · rcases lt_trichotomy a.2.2.1 b.2.2.1 with h3 | h3 | h3
      · simp [h1, h2, h3, lt_irrefl, asymm h3, h3.ne]
      · simp [h1, h2, h3, lt_irrefl]
      · simp [h1, h2, h3, lt_irrefl, asymm h3, h3.ne']
    · simp [h1, h2, lt_irrefl, asymm h2, h2.ne']
  · simp [h1, asymm h1, h1.ne']

/-- `entry_le` is reflexive. -/
theorem entry_le_refl (a : Entry) : entry_le a a = true := by
  rw [entry_le_iff]
  exact Or.inr ⟨rfl, Or.inr ⟨rfl, Or.inr ⟨rfl, le_refl _⟩⟩⟩

/-- `entry_le` is total. -/
theorem entry_le_total (a b : Entry) :
    entry_le a b = true ∨ entry_le b a = true := by
  rw [entry_le_iff, entry_le_iff]
  rcases lt_trichotomy a.1 b.1 with h1 | h1 | h1
  · exact Or.inl (Or.inl h1)
  · rcases lt_trichotomy a.2.1 b.2.1 with h2 | h2 | h2
    · exact Or.inl (Or.inr ⟨h1, Or.inl h2⟩)
    · rcases lt_trichotomy a.2.2.1 b.2.2.1 with h3 | h3 | h3
      · exact Or.inl (Or.inr ⟨h1, Or.inr ⟨h2, Or.inl h3⟩⟩)
      · rcases le_total a.2.2.2 b.2.2.2 with h4 | h4
        · exact Or.inl (Or.inr ⟨h1, Or.inr ⟨h2, Or.inr ⟨h3, h4⟩⟩⟩)
        · exact Or.inr (Or.inr ⟨h1.symm, Or.inr ⟨h2.symm, Or.inr ⟨h3.symm, h4⟩⟩⟩)
      · exact Or.inr (Or.inr ⟨h1.symm, Or.inr ⟨h2.symm, Or.inl h3⟩⟩)
    · exact Or.inr (Or.inr ⟨h1.symm, Or.inl h2⟩)
  · exact Or.inr (Or.inl h1)

/-- `entry_le` is transitive. -/
theorem entry_le_trans (a b c : Entry) (hab : entry_le a b = true)
    (hbc : entry_le b c = true) : entry_le a c = true := by
  rw [entry_le_iff] at hab hbc ⊢
  rcases hab with h1 | ⟨e1, hab⟩
  · rcases hbc with h2 | ⟨e2, _⟩
    · exact Or.inl (h1.trans h2)
    · exact Or.inl (e2 ▸ h1)
  · rcases hbc with h2 | ⟨e2, hbc⟩
    · exact Or.inl (e1 ▸ h2)
    · refine Or.inr ⟨e1.trans e2, ?_⟩
      rcases hab with h1 | ⟨f1, hab⟩
      · rcases hbc with h2 | ⟨f2, _⟩
        · exact Or.inl (h1.trans h2)
        · exact Or.inl (f2 ▸ h1)
      · rcases hbc with h2 | ⟨f2, hbc⟩
        · exact Or.inl (f1 ▸ h2)
        · refine Or.inr ⟨f1.trans f2, ?_⟩
          rcases hab with h1 | ⟨g1, hab⟩
          · rcases hbc with h2 | ⟨g2, _⟩
            · exact Or.inl (h1.trans h2)
            · exact Or.inl (g2 ▸ h1)
          · rcases hbc with h2 | ⟨g2, hbc⟩
            · exact Or.inl (g1 ▸ h2)
            · exact Or.inr ⟨g1.trans g2, hab.trans hbc⟩

/-- The lexicographically smaller entry has the smaller-or-equal `f`. -/
theorem entry_le_fst (a b : Entry) (h : entry_le a b = true) : a.1 ≤ b.1 := by
  rw [entry_le_iff] at h
  rcases h with h | ⟨h, _⟩
  · exact le_of_lt h
  · exact le_of_eq h

/-- `pop_min_go` returns an element of the candidates that is `entry_le`
everything, and the rest is a permutation of the others. -/
theorem pop_min_go_spec : ∀ (ys : List Entry) (m : Entry) (acc : List Entry),
    (∀ x ∈ acc, entry_le m x = true) →
    (pop_min_go m ys acc).1 ∈ m :: ys ∧
    ((pop_min_go m ys acc).1 :: (pop_min_go m ys acc).2).Perm (m :: ys ++ acc) ∧
    (∀ x ∈ m :: ys ++ acc, entry_le (pop_min_go m ys acc).1 x = true) := by
  intro ys
  induction ys with
  | nil =>
    intro m acc hacc
    refine ⟨by simp [pop_min_go], by simp [pop_min_go], ?_⟩
    intro x hx
    simp only [pop_min_go]
    rcases List.mem_cons.mp hx with rfl | hx'
    · exact entry_le_refl x
    · exact hacc x (by simpa using hx')
  | cons y ys ih =>
    intro m acc hacc
    by_cases hmy : entry_le m y = true
    · have hacc' : ∀ x ∈ y :: acc, entry_le m x = true := by
        intro x hx
        rcases List.mem_cons.mp hx with rfl | hx'
        · exact hmy
        · exact hacc x hx'
      obtain ⟨h1, h2, h3⟩ := ih m (y :: acc) hacc'
      rw [show pop_min_go m (y :: ys) acc = pop_min_go m ys (y :: acc) from by
        rw [pop_min_go, if_pos hmy]]
      refine ⟨?_, ?_, ?_⟩
      · rcases List.mem_cons.mp h1 with h | h
        · rw [h]
          exact List.mem_cons_self _ _
        · exact List.mem_cons_of_mem _ (List.mem_cons_of_mem _ h)
      · exact h2.trans (List.Perm.cons m List.perm_middle)
      · intro x hx
        apply h3
        simp only [List.mem_cons, List.mem_append] at hx ⊢
        tauto
    · have hym : entry_le y m = true := by
        rcases entry_le_total m y with h | h
        · exact absurd h hmy
        · exact h
      have hacc' : ∀ x ∈ m :: acc, entry_le y x = true := by
        intro x hx
        rcases List.mem_cons.mp hx with rfl | hx'
        · exact hym
        · exact entry_le_trans y m x hym (hacc x hx')
      obtain ⟨h1, h2, h3⟩ := ih y (m :: acc) hacc'
      rw [show pop_min_go m (y :: ys) acc = pop_min_go y ys (m :: acc) from by
        rw [pop_min_go, if_neg hmy]]
      refine ⟨?_, ?_, ?_⟩
      · rcases List.mem_cons.mp h1 with h | h
        · rw [h]
          exact List.mem_cons_of_mem _ (List.mem_cons_self _ _)
        · exact List.mem_cons_of_mem _ (List.mem_cons_of_mem _ h)
      · refine h2.trans ?_
        have hp : List.Perm ((y :: ys) ++ m :: acc) (m :: ((y :: ys) ++ acc)) :=
          List.perm_middle
        exact hp
      · intro x hx
        apply h3
        simp only [List.mem_cons, List.mem_append] at hx ⊢
        tauto

/-- Specification of `pop_min` on a non-empty queue. -/
theorem pop_min_spec (l : List Entry) (e : Entry) (rest : List Entry)
    (h : pop_min l = some (e, rest)) :
    e ∈ l ∧ (e :: rest).Perm l ∧ (∀ x ∈ l, entry_le e x = true) := by
  cases l with
  | nil => cases h
  | cons x xs =>
    obtain ⟨h1, h2, h3⟩ := pop_min_go_spec xs x [] (by intro y hy; cases hy)
    simp only [pop_min, Option.some.injEq] at h
    have he : (pop_min_go x xs []).1 = e := by rw [h]
    have hr : (pop_min_go x xs []).2 = rest := by rw [h]
    rw [he] at h1 h3
    rw [he, hr] at h2
    refine ⟨h1, ?_, ?_⟩
    · simpa using h2
    · intro y hy
      exact h3 y (by simpa using hy)

/-- Membership in `rest` after a pop: everything except the popped entry. -/
theorem pop_min_rest_mem (l : List Entry) (e : Entry) (rest : List Entry)
    (h : pop_min l = some (e, rest)) :
    (∀ x ∈ rest, x ∈ l) ∧ (∀ x ∈ l, x = e ∨ x ∈ rest) := by
  obtain ⟨-, hperm, -⟩ := pop_min_spec l e rest h
  constructor
  · intro x hx
    exact hperm.mem_iff.mp (List.mem_cons_of_mem _ hx)
  · intro x hx
    exact List.mem_cons.mp (hperm.mem_iff.mpr hx)

/-- `g_score` after `g_score[v] = q`. -/
theorem gs_at_set (st : AState) (v : Nat) (q : ℚ) (hv : v < st.g_score.length)
    (x : Nat) :
    gs_at { st with g_score := st.g_score.set v (some q) } x =
      if x = v then some q else gs_at st x := by
  unfold gs_at
  by_cases hx : x = v
  · subst hx
    simp [List.getD_eq_getElem?_getD, List.getElem?_set_self hv]
  · simp [List.getD_eq_getElem?_getD, List.getElem?_set_ne (fun h => hx h.symm), hx]

/-- `came_from` after `came_from[v] = u`. -/
theorem cf_at_set (st : AState) (v u : Nat) (hv : v < st.came_from.length)
    (x : Nat) :
    cf_at { st with came_from := st.came_from.set v (some u) } x =
      if x = v then some u else cf_at st x := by
  unfold cf_at
  by_cases hx : x = v
  · subst hx
    simp [List.getD_eq_getElem?_getD, List.getElem?_set_self hv]
  · simp [List.getD_eq_getElem?_getD, List.getElem?_set_ne (fun h => hx h.symm), hx]

/-- `gs_at`/`cf_at` ignore the open set and counter. -/
theorem gs_at_open (st : AState) (os : List Entry) (c : Nat) (x : Nat) :
    gs_at { st with open_set := os, counter := c } x = gs_at st x := rfl

/-- The slot found by `first_weight` is a real slot when the edge exists. -/
theorem first_weight_mem (g : CompactGraph) (u v : Nat) (h : is_edge g u v) :
    (v, first_weight g u v) ∈ g.neighbors u := by
  obtain ⟨w, hw⟩ := h
  have hex : ∃ x ∈ g.neighbors u, (fun tw => tw.1 == v) x = true :=
    ⟨(v, w), hw, by simp⟩
  rcases hfind : (g.neighbors u).find? (fun tw => tw.1 == v) with _ | tw
  · rw [List.find?_eq_none] at hfind
    obtain ⟨x, hx, hpx⟩ := hex
    exact absurd hpx (hfind x hx)
  · have hmem := List.mem_of_find?_eq_some hfind
    have hp := List.find?_some hfind
    have hv1 : tw.1 = v := by simpa using hp
    have : first_weight g u v = tw.2 := by
      unfold first_weight
      rw [hfind]
    rw [this, ← hv1]
    exact hmem

/-- With nonnegative weights every `first_weight` is nonnegative. -/
theorem first_weight_nonneg (g : CompactGraph) (hw : nonneg_weights g)
    (u v : Nat) : 0 ≤ first_weight g u v := by
  rcases hfind : (g.neighbors u).find? (fun tw => tw.1 == v) with _ | tw
  · unfold first_weight
    rw [hfind]
  · have hmem := List.mem_of_find?_eq_some hfind
    have : first_weight g u v = tw.2 := by
      unfold first_weight
      rw [hfind]
    rw [this]
    exact hw u tw hmem

/-- With nonnegative weights every path distance is nonnegative. -/
theorem path_distance_nonneg (g : CompactGraph) (hw : nonneg_weights g) :
    ∀ l, 0 ≤ path_distance g l := by
  intro l
  induction l with
  | nil => simp [path_distance]
  | cons x rest ih =>
    cases rest with
    | nil => simp [path_distance]
    | cons y rest2 =>
      have h1 := first_weight_nonneg g hw x y
      have h2 : 0 ≤ path_distance g (y :: rest2) := ih
      unfold path_distance
      linarith

/-- Consistency chained along a path: the heuristic at the head is at most
the path's distance to the target. -/
theorem hdist_le_path (g : CompactGraph) (tgt : Nat)
    (hcons : consistent_h g tgt) (h0 : g.hdist tgt tgt = 0) :
    ∀ l x, l.head? = some x → l.getLast? = some tgt →
      List.Chain' (is_edge g) l → g.hdist x tgt ≤ path_distance g l := by
  intro l
  induction l with
  | nil => intro x hx; cases hx
  | cons a rest ih =>
    intro x hx hlast hchain
    have hax : a = x := by simpa using hx
    subst hax
    cases rest with
    | nil =>
      have : a = tgt := by simpa using hlast
      subst this
      simp [path_distance, h0]
    | cons b rest2 =>
      have hedge : is_edge g a b := (List.chain'_cons.mp hchain).1
      have hchain2 : List.Chain' (is_edge g) (b :: rest2) :=
        (List.chain'_cons.mp hchain).2
      have hlast2 : (b :: rest2).getLast? = some tgt := by
        simpa using hlast
      have hmem := first_weight_mem g a b hedge
      have hstep := hcons a (b, first_weight g a b) hmem
      have hih := ih b (by simp) hlast2 hchain2
      unfold path_distance
      simp only at hstep
      linarith

/-- A completed parent-pointer reconstruction is a genuine path from the
source (under the `came_from` invariants). -/
theorem reconstruct_go_valid (g : CompactGraph) (st : AState) (src : Nat)
    (hcf : ∀ v u, cf_at st v = some u →
      u < g.node_ids.length ∧ is_edge g u v ∧ gs_at st v ≠ none ∧ gs_at st u ≠ none)
    (hcfn : ∀ v, v < g.node_ids.length → v ≠ src → gs_at st v ≠ none →
      cf_at st v ≠ none) :
    ∀ fuel cur acc l t0, reconstruct_go st.came_from src fuel cur acc = some l →
      cur < g.node_ids.length → gs_at st cur ≠ none →
      List.Chain' (is_edge g) (cur :: acc) →
      (cur :: acc).getLast? = some t0 →
      valid_path g src t0 l := by
  intro fuel
  induction fuel with
  | zero =>
    intro cur acc l t0 hgo hcur hgs hchain hlastacc
    rw [reconstruct_go] at hgo
    by_cases hsrc : cur = src
    · rw [if_pos hsrc] at hgo
      obtain rfl : cur :: acc = l := by
        injection hgo
      exact ⟨by simp, by simp [hsrc], hlastacc, hchain⟩
    · rw [if_neg hsrc] at hgo
      rcases hcf0 : cf_at st cur with _ | nxt
      · exact absurd hcf0 (hcfn cur hcur hsrc hgs)
      · have : st.came_from.getD cur none = some nxt := hcf0
        rw [this] at hgo
        cases hgo
  | succ fuel ih =>
    intro cur acc l t0 hgo hcur hgs hchain hlastacc
    rw [reconstruct_go] at hgo
    by_cases hsrc : cur = src
    · rw [if_pos hsrc] at hgo
      obtain rfl : cur :: acc = l := by
        injection hgo
      exact ⟨by simp, by simp [hsrc], hlastacc, hchain⟩
    · rw [if_neg hsrc] at hgo
      rcases hcf0 : cf_at st cur with _ | nxt
      · exact absurd hcf0 (hcfn cur hcur hsrc hgs)
      · have heq : st.came_from.getD cur none = some nxt := hcf0
        rw [heq] at hgo
        obtain ⟨hn, hedge, -, hgsn⟩ := hcf cur nxt hcf0
        refine ih nxt (cur :: acc) l t0 hgo hn hgsn ?_ ?_
        · exact List.chain'_cons.mpr ⟨hedge, hchain⟩
        · simpa using hlastacc

/-- From the invariant, every source-to-target path yields either an open
entry whose `f` is below the path's length, or a `g_score` at the target
below the path's length: walk down the path through closed nodes until a
live one (or the target) is reached. -/
theorem chain_reach (g : CompactGraph) (src tgt : Nat) (st : AState)
    (hw : nonneg_weights g) (hcons : consistent_h g tgt)
    (h0 : g.hdist tgt tgt = 0) (hwf : wf_graph g)
    (hinv : sp_inv g src tgt st) :
    ∀ l x qx, l.head? = some x → l.getLast? = some tgt →
      List.Chain' (is_edge g) l → x < g.node_ids.length →
      gs_at st x = some qx →
      (∃ e ∈ st.open_set, e.1 ≤ qx + path_distance g l) ∨
      (∃ qt, gs_at st tgt = some qt ∧ qt ≤ qx + path_distance g l) := by
  obtain ⟨hlen, hlenc, hsrc0, hnn, hent, hI1, hI6, hcf, hcfn⟩ := hinv
  intro l
  induction l with
  | nil => intro x qx hx; cases hx
  | cons a rest ih =>
    intro x qx hx hlast hchain hxN hgx
    have hax : a = x := by simpa using hx
    subst hax
    have hlive : live st a → (∃ e ∈ st.open_set, e.1 ≤ qx + path_distance g (a :: rest)) := by
      intro ⟨e, hmem, hidx, hgs⟩
      rw [hgx] at hgs
      have hg : e.2.1 = qx := by
        injection hgs with h'
        exact h'.symm
      obtain ⟨-, -, hf, -⟩ := hent e hmem
      have hpd : 0 ≤ path_distance g (a :: rest) := path_distance_nonneg g hw _
      rcases hf with hf | ⟨-, hf, -⟩
      · refine ⟨e, hmem, ?_⟩
        rw [hf, hidx, hg]
        have := hdist_le_path g tgt hcons h0 (a :: rest) a (by simp) hlast hchain
        linarith
      · refine ⟨e, hmem, ?_⟩
        rw [hf]
        have hq0 : 0 ≤ qx := hnn a qx hgx
        linarith
    rcases hI1 a hxN (by rw [hgx]; simp) with hl | hc
    · exact Or.inl (hlive hl)
    · cases rest with
      | nil =>
        have hat : a = tgt := by simpa using hlast
        subst hat
        refine Or.inr ⟨qx, hgx, ?_⟩
        simp [path_distance]
      | cons b rest2 =>
        obtain ⟨gv, hgv, hcl⟩ := hc
        rw [hgx] at hgv
        have hgveq : gv = qx := by
          injection hgv with h'
          exact h'.symm
        subst hgveq
        have hedge : is_edge g a b := (List.chain'_cons.mp hchain).1
        have hmem := first_weight_mem g a b hedge
        obtain ⟨gw, hgw, hgwle⟩ := hcl (b, first_weight g a b) hmem
        have hbN : b < g.node_ids.length := hwf a _ hmem
        have hchain2 : List.Chain' (is_edge g) (b :: rest2) :=
          (List.chain'_cons.mp hchain).2
        have hlast2 : (b :: rest2).getLast? = some tgt := by simpa using hlast
        rcases ih b gw (by simp) hlast2 hchain2 hbN hgw with ⟨e, hmem2, hb⟩ | ⟨qt, hq1, hq2⟩
        · refine Or.inl ⟨e, hmem2, ?_⟩
          have : path_distance g (a :: b :: rest2) =
              first_weight g a b + path_distance g (b :: rest2) := rfl
          simp only at hgwle
          linarith
        · refine Or.inr ⟨qt, hq1, ?_⟩
          have : path_distance g (a :: b :: rest2) =
              first_weight g a b + path_distance g (b :: rest2) := rfl
          simp only at hgwle
          linarith

/-- One relaxation preserves the bundle, leaves the relaxed slot at or
below `gval + w`, and only ever lowers `g_score`s. -/
theorem relax_step (g : CompactGraph) (src tgt cur : Nat) (gval : ℚ)
    (hw : nonneg_weights g) (hwf : wf_graph g)
    (hcur : cur < g.node_ids.length) (hgval : 0 ≤ gval) (hct : cur ≠ tgt)
    (vw : Nat × ℚ) (hvw : vw ∈ g.neighbors cur) (st : AState)
    (hpre : relax_pre g src tgt cur gval st) :
    relax_pre g src tgt cur gval (relax g tgt cur gval st vw) ∧
    (∃ q, gs_at (relax g tgt cur gval st vw) vw.1 = some q ∧ q ≤ gval + vw.2) ∧
    (∀ v q0, gs_at st v = some q0 →
      ∃ q1, gs_at (relax g tgt cur gval st vw) v = some q1 ∧ q1 ≤ q0) := by
  obtain ⟨hlen, hlenc, hsrc0, hnn, hent, hI1, hI6, hcf, hcfn, hgscur⟩ := hpre
  have hwnn : 0 ≤ vw.2 := hw cur vw hvw
  by_cases hup : lt_inf (gval + vw.2) (st.g_score.getD vw.1 none) = true
  · -- update branch
    have hvN : vw.1 < g.node_ids.length := hwf cur vw hvw
    have hvlen : vw.1 < st.g_score.length := by rw [hlen]; exact hvN
    have hvlenc : vw.1 < st.came_from.length := by rw [hlenc]; exact hvN
    have hstep : relax g tgt cur gval st vw =
        { came_from := st.came_from.set vw.1 (some cur)
          g_score := st.g_score.set vw.1 (some (gval + vw.2))
          counter := st.counter + 1
          open_set := st.open_set ++
            [(gval + vw.2 + g.hdist vw.1 tgt, gval + vw.2, st.counter + 1, vw.1)] } := by
      unfold relax
      rw [if_pos hup]
    have hgs' : ∀ x, gs_at (relax g tgt cur gval st vw) x =
        if x = vw.1 then some (gval + vw.2) else gs_at st x := by
      intro x
      rw [hstep]
      exact gs_at_set st vw.1 (gval + vw.2) hvlen x
    have hcf' : ∀ x, cf_at (relax g tgt cur gval st vw) x =
        if x = vw.1 then some cur else cf_at st x := by
      intro x
      rw [hstep]
      exact cf_at_set st vw.1 cur hvlenc x
    have hopen' : (relax g tgt cur gval st vw).open_set = st.open_set ++
        [(gval + vw.2 + g.hdist vw.1 tgt, gval + vw.2, st.counter + 1, vw.1)] := by
      rw [hstep]
    -- the relaxed node is neither the popped node nor the source
    have hvcur : vw.1 ≠ cur := by
      intro h
      rw [h] at hup
      rw [show st.g_score.getD cur none = some gval from hgscur] at hup
      simp [lt_inf] at hup
      linarith
    have hvsrc : vw.1 ≠ src := by
      intro h
      rw [h] at hup
      rw [show st.g_score.getD src none = some 0 from hsrc0] at hup
      simp [lt_inf] at hup
      linarith
    have hnonneg' : 0 ≤ gval + vw.2 := by linarith
    have hgs_keep : ∀ x, gs_at st x ≠ none →
        gs_at (relax g tgt cur gval st vw) x ≠ none := by
      intro x hx
      rw [hgs' x]
      by_cases h : x = vw.1
      · simp [h]
      · simpa [h] using hx
    refine ⟨⟨?_, ?_, ?_, ?_, ?_, ?_, ?_, ?_, ?_, ?_⟩, ?_, ?_⟩
    · rw [hstep]
      simpa using hlen
    · rw [hstep]
      simpa using hlenc
    · rw [hgs' src, if_neg (fun h => hvsrc h.symm)]
      exact hsrc0
    · intro v q hq
      rw [hgs' v] at hq
      by_cases h : v = vw.1
      · rw [if_pos h] at hq
        injection hq with h'
        linarith [h'.symm.le]
      · rw [if_neg h] at hq
        exact hnn v q hq
    · intro e he
      rw [hopen'] at he
      rcases List.mem_append.mp he with he | he
      · obtain ⟨h1, ⟨q, hq1, hq2⟩, h3, h4⟩ := hent e he
        refine ⟨h1, ?_, h3, h4⟩
        rw [hgs' e.2.2.2]
        by_cases h : e.2.2.2 = vw.1
        · refine ⟨gval + vw.2, by rw [if_pos h], ?_⟩
          rw [h] at hq1
          unfold lt_inf at hup
          rw [show st.g_score.getD vw.1 none = gs_at st vw.1 from rfl, hq1] at hup
          simp at hup
          linarith
        · exact ⟨q, by rw [if_neg h]; exact hq1, hq2⟩
      · have heq : e = (gval + vw.2 + g.hdist vw.1 tgt, gval + vw.2,
            st.counter + 1, vw.1) := by simpa using he
        subst heq
        refine ⟨hvN, ⟨gval + vw.2, ?_, le_refl _⟩, Or.inl rfl, hnonneg'⟩
        rw [hgs' vw.1, if_pos rfl]
    · intro v hvN' hvne hgsv
      by_cases h : v = vw.1
      · left
        refine ⟨(gval + vw.2 + g.hdist vw.1 tgt, gval + vw.2, st.counter + 1, vw.1),
          ?_, h.symm, ?_⟩
        · rw [hopen']
          simp
        · rw [hgs' v, if_pos h]
      · have hgsv0 : gs_at st v ≠ none := by
          rw [hgs' v, if_neg h] at hgsv
          exact hgsv
        rcases hI1 v hvN' hvne hgsv0 with ⟨e, he, hidx, hgse⟩ | ⟨gv, hgv, hcl⟩
        · left
          refine ⟨e, by rw [hopen']; exact List.mem_append.mpr (Or.inl he), hidx, ?_⟩
          rw [hgs' v, if_neg h]
          exact hgse
        · right
          refine ⟨gv, by rw [hgs' v, if_neg h]; exact hgv, ?_⟩
          intro nb hnb
          obtain ⟨gw, hgw1, hgw2⟩ := hcl nb hnb
          by_cases hnbv : nb.1 = vw.1
          · refine ⟨gval + vw.2, by rw [hgs' nb.1, if_pos hnbv], ?_⟩
            unfold lt_inf at hup
            rw [show st.g_score.getD vw.1 none = gs_at st vw.1 from rfl] at hup
            rw [← hnbv, hgw1] at hup
            simp at hup
            linarith
          · exact ⟨gw, by rw [hgs' nb.1, if_neg hnbv]; exact hgw1, hgw2⟩
    · intro hgst
      by_cases h : tgt = vw.1
      · refine ⟨(gval + vw.2 + g.hdist vw.1 tgt, gval + vw.2, st.counter + 1, vw.1),
          ?_, h.symm, ?_⟩
        · rw [hopen']
          simp
        · rw [hgs' tgt, if_pos h]
      · have : gs_at st tgt ≠ none := by
          rw [hgs' tgt, if_neg h] at hgst
          exact hgst
        obtain ⟨e, he, hidx, hgse⟩ := hI6 this
        refine ⟨e, by rw [hopen']; exact List.mem_append.mpr (Or.inl he), hidx, ?_⟩
        rw [hgs' tgt, if_neg h]
        exact hgse
    · intro v u hcfv
      rw [hcf' v] at hcfv
      by_cases h : v = vw.1
      · rw [if_pos h] at hcfv
        have hu : u = cur := by
          injection hcfv with h'
          exact h'.symm
        refine ⟨?_, ?_, ?_, ?_⟩
        · rw [hu]
          exact hcur
        · rw [hu, h]
          refine ⟨vw.2, ?_⟩
          rw [show (vw.1, vw.2) = vw from rfl]
          exact hvw
        · rw [hgs' v, if_pos h]
          simp
        · rw [hu, hgs' cur, if_neg (fun h' => hvcur h'.symm), hgscur]
          simp
      · rw [if_neg h] at hcfv
        obtain ⟨h1, h2, h3, h4⟩ := hcf v u hcfv
        refine ⟨h1, h2, ?_, hgs_keep u h4⟩
        rw [hgs' v, if_neg h]
        exact h3
    · intro v hvN' hvs hgsv
      rw [hcf' v]
      by_cases h : v = vw.1
      · simp [h]
      · rw [if_neg h]
        rw [hgs' v, if_neg h] at hgsv
        exact hcfn v hvN' hvs hgsv
    · rw [hgs' cur, if_neg (fun h => hvcur h.symm)]
      exact hgscur
    · refine ⟨gval + vw.2, ?_, le_refl _⟩
      rw [hgs' vw.1, if_pos rfl]
    · intro v q0 hq0
      rw [hgs' v]
      by_cases h : v = vw.1
      · refine ⟨gval + vw.2, by rw [if_pos h], ?_⟩
        unfold lt_inf at hup
        rw [show st.g_score.getD vw.1 none = gs_at st vw.1 from rfl] at hup
        rw [← h, hq0] at hup
        simp at hup
        linarith
      · exact ⟨q0, by rw [if_neg h]; exact hq0, le_refl _⟩
  · -- no-update branch
    have hstep : relax g tgt cur gval st vw = st := by
      unfold relax
      rw [if_neg hup]
    rw [hstep]
    refine ⟨⟨hlen, hlenc, hsrc0, hnn, hent, hI1, hI6, hcf, hcfn, hgscur⟩, ?_, ?_⟩
    · unfold lt_inf at hup
      rcases hg : st.g_score.getD vw.1 none with _ | qv
      · rw [hg] at hup
        simp at hup
      · rw [hg] at hup
        simp at hup
        exact ⟨qv, hg, hup⟩
    · intro v q0 hq0
      exact ⟨q0, hq0, le_refl _⟩

/-- Folding the relaxation over a sublist of `cur`'s slots preserves the
bundle, relaxes every processed slot, and only lowers `g_score`s. -/
theorem relax_fold (g : CompactGraph) (src tgt cur : Nat) (gval : ℚ)
    (hw : nonneg_weights g) (hwf : wf_graph g)
    (hcur : cur < g.node_ids.length) (hgval : 0 ≤ gval) (hct : cur ≠ tgt) :
    ∀ (rem : List (Nat × ℚ)), (∀ vw ∈ rem, vw ∈ g.neighbors cur) →
    ∀ st, relax_pre g src tgt cur gval st →
    relax_pre g src tgt cur gval (rem.foldl (relax g tgt cur gval) st) ∧
    (∀ vw ∈ rem, ∃ q,
      gs_at (rem.foldl (relax g tgt cur gval) st) vw.1 = some q ∧ q ≤ gval + vw.2) ∧
    (∀ v q0, gs_at st v = some q0 →
      ∃ q1, gs_at (rem.foldl (relax g tgt cur gval) st) v = some q1 ∧ q1 ≤ q0) := by
  intro rem
  induction rem with
  | nil =>
    intro hmem st hpre
    refine ⟨hpre, ?_, ?_⟩
    · intro vw h
      cases h
    · intro v q0 h
      exact ⟨q0, h, le_refl _⟩
  | cons vw rest ih =>
    intro hmem st hpre
    have hvw : vw ∈ g.neighbors cur := hmem vw (by simp)
    obtain ⟨hpre', hrel, hmono⟩ :=
      relax_step g src tgt cur gval hw hwf hcur hgval hct vw hvw st hpre
    have hmem' : ∀ x ∈ rest, x ∈ g.neighbors cur := fun x hx =>
      hmem x (List.mem_cons_of_mem _ hx)
    obtain ⟨hpre2, hrel2, hmono2⟩ := ih hmem' (relax g tgt cur gval st vw) hpre'
    rw [List.foldl_cons]
    refine ⟨hpre2, ?_, ?_⟩
    · intro x hx
      rcases List.mem_cons.mp hx with rfl | hx'
      · obtain ⟨q, hq1, hq2⟩ := hrel
        obtain ⟨q1, hq3, hq4⟩ := hmono2 x.1 q hq1
        exact ⟨q1, hq3, le_trans hq4 hq2⟩
      · exact hrel2 x hx'
    · intro v q0 hq0
      obtain ⟨q1, hq1, hq2⟩ := hmono v q0 hq0
      obtain ⟨q2, hq3, hq4⟩ := hmono2 v q1 hq1
      exact ⟨q2, hq3, le_trans hq4 hq2⟩

/-- `g_score` of the freshly initialised state. -/
theorem gs_at_init (n src : Nat) (hsrc : src < n) (v : Nat) :
    gs_at (init_state n src) v = if v = src then some 0 else none := by
  unfold gs_at init_state
  by_cases hv : v = src
  · subst hv
    have hvlen : v < ((List.replicate n (none : Option ℚ))).length := by
      simpa using hsrc
    simp [List.getD_eq_getElem?_getD, List.getElem?_set_self hvlen]
  · simp only [List.getD_eq_getElem?_getD,
      List.getElem?_set_ne (fun h => hv h.symm), if_neg hv]
    rcases Nat.lt_or_ge v n with h | h
    · simp [List.getElem?_replicate, h]
    · have hlen : (List.replicate n (none : Option ℚ)).length ≤ v := by
        simpa using h
      simp [List.getElem?_eq_none hlen]

/-- `came_from` of the freshly initialised state. -/
theorem cf_at_init (n src : Nat) (v : Nat) :
    cf_at (init_state n src) v = none := by
  unfold cf_at init_state
  simp only [List.getD_eq_getElem?_getD]
  rcases Nat.lt_or_ge v n with h | h
  · simp [List.getElem?_replicate, h]
  · have hlen : (List.replicate n (none : Option Nat)).length ≤ v := by
      simpa using h
    simp [List.getElem?_eq_none hlen]

/-- The invariant holds at search start. -/
theorem sp_inv_init (g : CompactGraph) (src tgt : Nat)
    (hsrc : src < g.node_ids.length) :
    sp_inv g src tgt (init_state g.number_of_nodes src) := by
  have hn : g.number_of_nodes = g.node_ids.length := rfl
  have hgs := gs_at_init g.number_of_nodes src (by rw [hn]; exact hsrc)
  have hlive : live (init_state g.number_of_nodes src) src := by
    refine ⟨(0, 0, 0, src), ?_, rfl, ?_⟩
    · unfold init_state
      simp
    · rw [hgs src, if_pos rfl]
  refine ⟨?_, ?_, ?_, ?_, ?_, ?_, ?_, ?_, ?_⟩
  · unfold init_state
    simpa using hn
  · unfold init_state
    simpa using hn
  · rw [hgs src, if_pos rfl]
  · intro v q hq
    rw [hgs v] at hq
    by_cases h : v = src
    · rw [if_pos h] at hq
      injection hq with h'
      exact h'.le
    · rw [if_neg h] at hq
      cases hq
  · intro e he
    have heq : e = (0, 0, 0, src) := by
      unfold init_state at he
      simpa using he
    subst heq
    refine ⟨hsrc, ⟨0, ?_, le_refl _⟩, Or.inr ⟨rfl, rfl, rfl⟩, le_refl _⟩
    rw [hgs src, if_pos rfl]
  · intro v hvN hgsne
    have hv : v = src := by
      by_contra h
      rw [hgs v, if_neg h] at hgsne
      exact hgsne rfl
    subst hv
    exact Or.inl hlive
  · intro hgst
    have ht : tgt = src := by
      by_contra h
      rw [hgs tgt, if_neg h] at hgst
      exact hgst rfl
    rw [ht]
    exact hlive
  · intro v u hcfv
    rw [cf_at_init] at hcfv
    cases hcfv
  · intro v hvN hvs hgsne
    rw [hgs v, if_neg hvs] at hgsne
    exact absurd rfl hgsne

/-- Discarding a stale popped entry keeps the invariant. -/
theorem sp_inv_stale (g : CompactGraph) (src tgt : Nat) (st : AState)
    (e : Entry) (rest : List Entry)
    (hpop : pop_min st.open_set = some (e, rest))
    (hinv : sp_inv g src tgt st)
    (hstale : gt_score e.2.1 (gs_at st e.2.2.2) = true) :
    sp_inv g src tgt { st with open_set := rest } := by
  obtain ⟨hlen, hlenc, hsrc0, hnn, hent, hI1, hI6, hcf, hcfn⟩ := hinv
  obtain ⟨hsub, hsplit⟩ := pop_min_rest_mem st.open_set e rest hpop
  have hnotlive : ∀ v, e.2.2.2 = v → gs_at st v ≠ some e.2.1 := by
    intro v hidx hgs
    rw [← hidx] at hgs
    rw [hgs] at hstale
    simp [gt_score] at hstale
  have hlive' : ∀ v, live st v → live { st with open_set := rest } v := by
    intro v ⟨e', he', hidx, hgs⟩
    rcases hsplit e' he' with rfl | hr
    · exact absurd hgs (hnotlive v hidx)
    · exact ⟨e', hr, hidx, hgs⟩
  refine ⟨hlen, hlenc, hsrc0, hnn, ?_, ?_, ?_, hcf, hcfn⟩
  · intro e' he'
    exact hent e' (hsub e' he')
  · intro v hvN hgsne
    rcases hI1 v hvN hgsne with h | h
    · exact Or.inl (hlive' v h)
    · exact Or.inr h
  · intro hgst
    exact hlive' tgt (hI6 hgst)

/-- One-step unfolding of the loop when the queue is empty. -/
theorem astar_loop_succ_none (g : CompactGraph) (src tgt fuel : Nat)
    (st : AState) (hpop : pop_min st.open_set = none) :
    astar_loop g src tgt (fuel + 1) st = none := by
  unfold astar_loop
  rw [hpop]

/-- One-step unfolding of the loop at a successful pop. -/
theorem astar_loop_succ_some (g : CompactGraph) (src tgt fuel : Nat)
    (st : AState) (e : Entry) (rest : List Entry)
    (hpop : pop_min st.open_set = some (e, rest)) :
    astar_loop g src tgt (fuel + 1) st =
      if e.2.2.2 = tgt then
        (reconstruct_path st.came_from src e.2.2.2).map (fun p => (p, e.2.1))
      else if gt_score e.2.1 (st.g_score.getD e.2.2.2 none) then
        astar_loop g src tgt fuel { st with open_set := rest }
      else
        astar_loop g src tgt fuel
          ((g.neighbors e.2.2.2).foldl (relax g tgt e.2.2.2 e.2.1)
            { st with open_set := rest }) := by
  rw [show astar_loop g src tgt (fuel + 1) st =
      match pop_min st.open_set with
      | none => none
      | some (e, rest) =>
        if e.2.2.2 = tgt then
          (reconstruct_path st.came_from src e.2.2.2).map (fun p => (p, e.2.1))
        else if gt_score e.2.1 (st.g_score.getD e.2.2.2 none) then
          astar_loop g src tgt fuel { st with open_set := rest }
        else
          astar_loop g src tgt fuel
            ((g.neighbors e.2.2.2).foldl (relax g tgt e.2.2.2 e.2.1)
              { st with open_set := rest })
    from rfl]
  rw [hpop]

/-- Partial correctness of `shortest_path`'s loop: a successful return is a
genuine source-to-target path whose reported `g` undercuts every
source-to-target path's length (so it is the shortest distance). -/
theorem astar_loop_le (g : CompactGraph) (src tgt : Nat)
    (hw : nonneg_weights g) (hcons : consistent_h g tgt)
    (h0 : g.hdist tgt tgt = 0) (hwf : wf_graph g)
    (hsrcN : src < g.node_ids.length) (hst : src ≠ tgt) :
    ∀ fuel st idxs dval, sp_inv g src tgt st →
      astar_loop g src tgt fuel st = some (idxs, dval) →
      valid_path g src tgt idxs ∧ 0 ≤ dval ∧
      ∀ q, valid_path g src tgt q → dval ≤ path_distance g q := by
  intro fuel
  induction fuel with
  | zero =>
    intro st idxs dval hinv hgo
    cases hgo
  | succ fuel ih =>
    intro st idxs dval hinv hgo
    rcases hpop : pop_min st.open_set with _ | er
    · rw [astar_loop_succ_none g src tgt fuel st hpop] at hgo
      cases hgo
    · obtain ⟨e, rest⟩ := er
      rw [astar_loop_succ_some g src tgt fuel st e rest hpop] at hgo
      have hmem_e : e ∈ st.open_set := (pop_min_spec _ _ _ hpop).1
      have hminall : ∀ x ∈ st.open_set, entry_le e x = true :=
        (pop_min_spec _ _ _ hpop).2.2
      obtain ⟨hlen, hlenc, hsrc0, hnn, hent, hI1, hI6, hcf, hcfn⟩ := hinv
      obtain ⟨heN, ⟨qc, hqc1, hqc2⟩, hform, hge⟩ := hent e hmem_e
      by_cases htgt : e.2.2.2 = tgt
      · rw [if_pos htgt] at hgo
        have hf : e.1 = e.2.1 := by
          rcases hform with h | ⟨hes, -, -⟩
          · rw [h, htgt, h0, add_zero]
          · exact absurd (hes ▸ htgt) hst
        rcases hrec : reconstruct_path st.came_from src e.2.2.2 with _ | l
        · rw [hrec] at hgo
          have hgo2 : (none : Option (List Nat × ℚ)) = some (idxs, dval) := hgo
          cases hgo2
        · rw [hrec] at hgo
          have hgo2 : some (l, e.2.1) = some (idxs, dval) := hgo
          injection hgo2 with hpair
          have hi : l = idxs := congrArg Prod.fst hpair
          have hd : e.2.1 = dval := congrArg Prod.snd hpair
          have hvalid : valid_path g src tgt l := by
            refine reconstruct_go_valid g st src hcf hcfn
              (st.came_from.length + 1) e.2.2.2 [] l tgt hrec heN
              (by rw [hqc1]; simp) (by simp) ?_
            rw [htgt]
            rfl
          refine ⟨hi ▸ hvalid, hd ▸ hge, ?_⟩
          intro q hq
          obtain ⟨-, hqh, hql, hqc'⟩ := hq
          have hsome0 : gs_at st src = some 0 := hsrc0
          rcases chain_reach g src tgt st hw hcons h0 hwf
              ⟨hlen, hlenc, hsrc0, hnn, hent, hI1, hI6, hcf, hcfn⟩
              q src 0 hqh hql hqc' hsrcN hsome0 with
            ⟨e', he', hle⟩ | ⟨qt, hqt1, hqt2⟩
          · have h1 : e.1 ≤ e'.1 := entry_le_fst e e' (hminall e' he')
            rw [← hd, ← hf]
            linarith
          · obtain ⟨el, hel, helidx, helgs⟩ := hI6 (by rw [hqt1]; simp)
            have helq : el.2.1 = qt := by
              rw [hqt1] at helgs
              injection helgs with h'
              exact h'.symm
            obtain ⟨-, -, hformel, -⟩ := hent el hel
            have hfel : el.1 = el.2.1 := by
              rcases hformel with h | ⟨hes, -, -⟩
              · rw [h, helidx, h0, add_zero]
              · exact absurd (hes ▸ helidx) hst
            have h1 : e.1 ≤ el.1 := entry_le_fst e el (hminall el hel)
            rw [← hd, ← hf]
            rw [hfel, helq] at h1
            linarith
      · rw [if_neg htgt] at hgo
        by_cases hstale : gt_score e.2.1 (st.g_score.getD e.2.2.2 none) = true
        · rw [if_pos hstale] at hgo
          refine ih _ idxs dval ?_ hgo
          exact sp_inv_stale g src tgt st e rest hpop
            ⟨hlen, hlenc, hsrc0, hnn, hent, hI1, hI6, hcf, hcfn⟩ hstale
        · rw [if_neg hstale] at hgo
          have hgscur : gs_at st e.2.2.2 = some e.2.1 := by
            have : ¬ (qc < e.2.1) := by
              intro hlt
              apply hstale
              rw [show st.g_score.getD e.2.2.2 none = gs_at st e.2.2.2 from rfl,
                hqc1]
              simpa [gt_score] using hlt
            rw [hqc1]
            congr 1
            linarith
          have hrest_sub := (pop_min_rest_mem st.open_set e rest hpop).1
          have hrest_split := (pop_min_rest_mem st.open_set e rest hpop).2
          have hpre0 : relax_pre g src tgt e.2.2.2 e.2.1
              { st with open_set := rest } := by
            refine ⟨hlen, hlenc, hsrc0, hnn, ?_, ?_, ?_, hcf, hcfn, hgscur⟩
            · intro e' he'
              exact hent e' (hrest_sub e' he')
            · intro v hvN hvne hgsne
              rcases hI1 v hvN hgsne with ⟨e', he', hidx, hgs⟩ | h
              · left
                rcases hrest_split e' he' with rfl | hr
                · exact absurd hidx (fun h' => hvne h'.symm)
                · exact ⟨e', hr, hidx, hgs⟩
              · exact Or.inr h
            · intro hgst
              obtain ⟨e', he', hidx, hgs⟩ := hI6 hgst
              rcases hrest_split e' he' with rfl | hr
              · exact absurd hidx htgt
              · exact ⟨e', hr, hidx, hgs⟩
          obtain ⟨hpre1, hrelaxed, -⟩ :=
            relax_fold g src tgt e.2.2.2 e.2.1 hw hwf heN hge htgt
              (g.neighbors e.2.2.2) (fun vw h => h)
              { st with open_set := rest } hpre0
          obtain ⟨klen, klenc, ksrc0, knn, kent, kI1, kI6, kcf, kcfn, kgscur⟩ :=
            hpre1
          refine ih _ idxs dval ⟨klen, klenc, ksrc0, knn, kent, ?_, kI6, kcf, kcfn⟩
            hgo
          intro v hvN hgsne
          by_cases hv : v = e.2.2.2
          · subst hv
            right
            refine ⟨e.2.1, kgscur, ?_⟩
            intro vw hvw
            exact hrelaxed vw hvw
          · exact kI1 v hvN hv hgsne

/-- A successful dict lookup returns an in-range index holding that id. -/
theorem idx_for_osm_spec (g : CompactGraph) (x : Int) (i : Nat)
    (h : idx_for_osm_id g x = some i) :
    i < g.node_ids.length ∧ osm_of g i = x := by
  unfold idx_for_osm_id at h
  rw [List.findIdx?_eq_some_iff_getElem] at h
  obtain ⟨hlt, hp, -⟩ := h
  refine ⟨hlt, ?_⟩
  have hx : g.node_ids[i] = x := by simpa using hp
  unfold osm_of
  rw [List.getD_eq_getElem?_getD, List.getElem?_eq_getElem hlt]
  simpa using hx

/-- Distinct osm ids look up to distinct indices. -/
theorem idx_for_osm_ne (g : CompactGraph) (x y : Int) (i j : Nat)
    (hx : idx_for_osm_id g x = some i) (hy : idx_for_osm_id g y = some j)
    (hne : x ≠ y) : i ≠ j := by
  intro hij
  apply hne
  rw [← (idx_for_osm_spec g x i hx).2, ← (idx_for_osm_spec g y j hy).2, hij]

/-- The penalized invariant holds at search start. -/
theorem pen_inv_init (g : CompactGraph) (src : Nat)
    (hsrc : src < g.node_ids.length) :
    pen_inv g src (init_state g.number_of_nodes src) := by
  have hn : g.number_of_nodes = g.node_ids.length := rfl
  have hgs := gs_at_init g.number_of_nodes src (by rw [hn]; exact hsrc)
  refine ⟨?_, ?_, ?_, ?_, ?_⟩
  · unfold init_state
    simpa using hn
  · unfold init_state
    simpa using hn
  · intro e he
    have heq : e = (0, 0, 0, src) := by
      unfold init_state at he
      simpa using he
    subst heq
    refine ⟨hsrc, ?_⟩
    rw [hgs src, if_pos rfl]
    simp
  · intro v u hcfv
    rw [cf_at_init] at hcfv
    cases hcfv
  · intro v hvN hvs hgsne
    rw [hgs v, if_neg hvs] at hgsne
    exact absurd rfl hgsne

/-- Discarding the popped entry keeps the penalized invariant. -/
theorem pen_inv_pop (g : CompactGraph) (src : Nat) (st : AState)
    (e : Entry) (rest : List Entry)
    (hpop : pop_min st.open_set = some (e, rest))
    (hpen : pen_inv g src st) :
    pen_inv g src { st with open_set := rest } := by
  obtain ⟨hlen, hlenc, hent, hcf, hcfn⟩ := hpen
  have hsub := (pop_min_rest_mem st.open_set e rest hpop).1
  exact ⟨hlen, hlenc, fun e' he' => hent e' (hsub e' he'), hcf, hcfn⟩

/-- Writing one relaxed slot and pushing its entry keeps the penalized
invariant. -/
theorem push_update_pen (g : CompactGraph) (src tgt cur : Nat) (st : AState)
    (v : Nat) (q : ℚ) (hvN : v < g.node_ids.length)
    (hedge : is_edge g cur v) (hcurN : cur < g.node_ids.length)
    (hgcur : gs_at st cur ≠ none) (hpen : pen_inv g src st) :
    pen_inv g src
      { came_from := st.came_from.set v (some cur)
        g_score := st.g_score.set v (some q)
        counter := st.counter + 1
        open_set := st.open_set ++ [(q + g.hdist v tgt, q, st.counter + 1, v)] } ∧
    gs_at
      { came_from := st.came_from.set v (some cur)
        g_score := st.g_score.set v (some q)
        counter := st.counter + 1
        open_set := st.open_set ++ [(q + g.hdist v tgt, q, st.counter + 1, v)] }
      cur ≠ none := by
  obtain ⟨hlen, hlenc, hent, hcf, hcfn⟩ := hpen
  have hvlen : v < st.g_score.length := by rw [hlen]; exact hvN
  have hvlenc : v < st.came_from.length := by rw [hlenc]; exact hvN
  have hgs' : ∀ x, gs_at
      { came_from := st.came_from.set v (some cur)
        g_score := st.g_score.set v (some q)
        counter := st.counter + 1
        open_set := st.open_set ++ [(q + g.hdist v tgt, q, st.counter + 1, v)] } x =
      if x = v then some q else gs_at st x := fun x => gs_at_set st v q hvlen x
  have hcf' : ∀ x, cf_at
      { came_from := st.came_from.set v (some cur)
        g_score := st.g_score.set v (some q)
        counter := st.counter + 1
        open_set := st.open_set ++ [(q + g.hdist v tgt, q, st.counter + 1, v)] } x =
      if x = v then some cur else cf_at st x := fun x => cf_at_set st v cur hvlenc x
  have hkeep : ∀ x, gs_at st x ≠ none →
      (if x = v then some q else gs_at st x) ≠ none := by
    intro x hx
    by_cases h : x = v
    · simp [h]
    · simpa [h] using hx
  refine ⟨⟨?_, ?_, ?_, ?_, ?_⟩, ?_⟩
  · simpa using hlen
  · simpa using hlenc
  · intro e he
    rcases List.mem_append.mp he with he | he
    · obtain ⟨h1, h2⟩ := hent e he
      refine ⟨h1, ?_⟩
      rw [hgs' e.2.2.2]
      exact hkeep _ h2
    · have heq : e = (q + g.hdist v tgt, q, st.counter + 1, v) := by simpa using he
      subst heq
      refine ⟨hvN, ?_⟩
      rw [hgs' v, if_pos rfl]
      simp
  · intro x u hcfv
    rw [hcf' x] at hcfv
    by_cases h : x = v
    · rw [if_pos h] at hcfv
      have hu : u = cur := by
        injection hcfv with h'
        exact h'.symm
      refine ⟨?_, ?_, ?_, ?_⟩
      · rw [hu]
        exact hcurN
      · rw [hu, h]
        exact hedge
      · rw [hgs' x, if_pos h]
        simp
      · rw [hu, hgs' cur]
        exact hkeep _ hgcur
    · rw [if_neg h] at hcfv
      obtain ⟨h1, h2, h3, h4⟩ := hcf x u hcfv
      refine ⟨h1, h2, ?_, ?_⟩
      · rw [hgs' x, if_neg h]
        exact h3
      · rw [hgs' u]
        exact hkeep _ h4
  · intro x hxN hxs hgsx
    rw [hcf' x]
    by_cases h : x = v
    · simp [h]
    · rw [if_neg h]
      rw [hgs' x, if_neg h] at hgsx
      exact hcfn x hxN hxs hgsx
  · rw [hgs' cur]
    exact hkeep _ hgcur

/-- One penalized relaxation keeps the penalized invariant. -/
theorem relax_pen_step (g : CompactGraph) (walked : List (Int × Int))
    (pfac : ℚ) (src tgt cur : Nat) (gval : ℚ) (hwf : wf_graph g)
    (hcurN : cur < g.node_ids.length) (st : AState) (vw : Nat × ℚ)
    (hvw : vw ∈ g.neighbors cur) (hgcur : gs_at st cur ≠ none)
    (hpen : pen_inv g src st) :
    pen_inv g src (relax_pen g walked pfac tgt cur gval st vw) ∧
    gs_at (relax_pen g walked pfac tgt cur gval st vw) cur ≠ none := by
  have hvN : vw.1 < g.node_ids.length := hwf cur vw hvw
  have hedge : is_edge g cur vw.1 := by
    refine ⟨vw.2, ?_⟩
    rw [show (vw.1, vw.2) = vw from rfl]
    exact hvw
  by_cases hup : lt_inf
      (gval + (if walked.contains (edge_key (osm_of g cur) (osm_of g vw.1))
        then vw.2 * pfac else vw.2))
      (st.g_score.getD vw.1 none) = true
  · have hstep : relax_pen g walked pfac tgt cur gval st vw =
        { came_from := st.came_from.set vw.1 (some cur)
          g_score := st.g_score.set vw.1 (some (gval +
            (if walked.contains (edge_key (osm_of g cur) (osm_of g vw.1))
              then vw.2 * pfac else vw.2)))
          counter := st.counter + 1
          open_set := st.open_set ++ [(gval +
            (if walked.contains (edge_key (osm_of g cur) (osm_of g vw.1))
              then vw.2 * pfac else vw.2) + g.hdist vw.1 tgt,
            gval + (if walked.contains (edge_key (osm_of g cur) (osm_of g vw.1))
              then vw.2 * pfac else vw.2), st.counter + 1, vw.1)] } := by
      unfold relax_pen
      rw [if_pos hup]
    rw [hstep]
    exact push_update_pen g src tgt cur st vw.1 _ hvN hedge hcurN hgcur hpen
  · have hstep : relax_pen g walked pfac tgt cur gval st vw = st := by
      unfold relax_pen
      rw [if_neg hup]
    rw [hstep]
    exact ⟨hpen, hgcur⟩

/-- The penalized relaxation pass keeps the penalized invariant. -/
theorem relax_pen_fold (g : CompactGraph) (walked : List (Int × Int))
    (pfac : ℚ) (src tgt cur : Nat) (gval : ℚ) (hwf : wf_graph g)
    (hcurN : cur < g.node_ids.length) :
    ∀ (rem : List (Nat × ℚ)), (∀ vw ∈ rem, vw ∈ g.neighbors cur) →
    ∀ st, gs_at st cur ≠ none → pen_inv g src st →
    pen_inv g src (rem.foldl (relax_pen g walked pfac tgt cur gval) st) := by
  intro rem
  induction rem with
  | nil =>
    intro hmem st hgcur hpen
    exact hpen
  | cons vw rest ih =>
    intro hmem st hgcur hpen
    obtain ⟨hpen', hgcur'⟩ :=
      relax_pen_step g walked pfac src tgt cur gval hwf hcurN st vw
        (hmem vw (by simp)) hgcur hpen
    rw [List.foldl_cons]
    exact ih (fun x hx => hmem x (List.mem_cons_of_mem _ hx)) _ hgcur' hpen'

/-- One-step unfolding of the penalized loop when the queue is empty. -/
theorem pen_loop_succ_none (g : CompactGraph) (walked : List (Int × Int))
    (pfac : ℚ) (src tgt fuel : Nat) (st : AState)
    (hpop : pop_min st.open_set = none) :
    pen_loop g walked pfac src tgt (fuel + 1) st = none := by
  unfold pen_loop
  rw [hpop]

/-- One-step unfolding of the penalized loop at a successful pop. -/
theorem pen_loop_succ_some (g : CompactGraph) (walked : List (Int × Int))
    (pfac : ℚ) (src tgt fuel : Nat) (st : AState) (e : Entry)
    (rest : List Entry) (hpop : pop_min st.open_set = some (e, rest)) :
    pen_loop g walked pfac src tgt (fuel + 1) st =
      if e.2.2.2 = tgt then reconstruct_path st.came_from src e.2.2.2
      else if gt_score e.2.1 (st.g_score.getD e.2.2.2 none) then
        pen_loop g walked pfac src tgt fuel { st with open_set := rest }
      else
        pen_loop g walked pfac src tgt fuel
          ((g.neighbors e.2.2.2).foldl (relax_pen g walked pfac tgt e.2.2.2 e.2.1)
            { st with open_set := rest }) := by
  rw [show pen_loop g walked pfac src tgt (fuel + 1) st =
      match pop_min st.open_set with
      | none => none
      | some (e, rest) =>
        if e.2.2.2 = tgt then reconstruct_path st.came_from src e.2.2.2
        else if gt_score e.2.1 (st.g_score.getD e.2.2.2 none) then
          pen_loop g walked pfac src tgt fuel { st with open_set := rest }
        else
          pen_loop g walked pfac src tgt fuel
            ((g.neighbors e.2.2.2).foldl
              (relax_pen g walked pfac tgt e.2.2.2 e.2.1)
              { st with open_set := rest })
    from rfl]
  rw [hpop]

/-- Partial correctness of `_penalized_astar`'s loop: a returned index list
is a genuine source-to-target path. -/
theorem pen_loop_valid (g : CompactGraph) (walked : List (Int × Int))
    (pfac : ℚ) (src tgt : Nat) (hwf : wf_graph g) :
    ∀ fuel st idxs, pen_inv g src st →
      pen_loop g walked pfac src tgt fuel st = some idxs →
      valid_path g src tgt idxs := by
  intro fuel
  induction fuel with
  | zero =>
    intro st idxs hpen hgo
    cases hgo
  | succ fuel ih =>
    intro st idxs hpen hgo
    rcases hpop : pop_min st.open_set with _ | er
    · rw [pen_loop_succ_none g walked pfac src tgt fuel st hpop] at hgo
      cases hgo
    · obtain ⟨e, rest⟩ := er
      rw [pen_loop_succ_some g walked pfac src tgt fuel st e rest hpop] at hgo
      have hmem_e : e ∈ st.open_set := (pop_min_spec _ _ _ hpop).1
      obtain ⟨hlen, hlenc, hent, hcf, hcfn⟩ := hpen
      obtain ⟨heN, hegs⟩ := hent e hmem_e
      by_cases htgt : e.2.2.2 = tgt
      · rw [if_pos htgt] at hgo
        have hvalid : valid_path g src tgt idxs := by
          refine reconstruct_go_valid g st src hcf hcfn
            (st.came_from.length + 1) e.2.2.2 [] idxs tgt hgo heN hegs
            (by simp) ?_
          rw [htgt]
          rfl
        exact hvalid
      · rw [if_neg htgt] at hgo
        by_cases hstale : gt_score e.2.1 (st.g_score.getD e.2.2.2 none) = true
        · rw [if_pos hstale] at hgo
          exact ih _ idxs
            (pen_inv_pop g src st e rest hpop ⟨hlen, hlenc, hent, hcf, hcfn⟩) hgo
        · rw [if_neg hstale] at hgo
          refine ih _ idxs ?_ hgo
          exact relax_pen_fold g walked pfac src tgt e.2.2.2 e.2.1 hwf heN
            (g.neighbors e.2.2.2) (fun vw h => h)
            { st with open_set := rest } hegs
            (pen_inv_pop g src st e rest hpop ⟨hlen, hlenc, hent, hcf, hcfn⟩)

/-- The distance reported by `_penalized_astar` is the length of a real
source-to-target path and therefore at least the baseline shortest
distance. -/
theorem penalized_ge_baseline (g : CompactGraph) (hw : nonneg_weights g)
    (hwf : wf_graph g)
    (hcons : ∀ v, v < g.node_ids.length → consistent_h g v)
    (h0 : ∀ v, v < g.node_ids.length → g.hdist v v = 0)
    (s t : Int) (bp : List Int) (bd : ℚ)
    (hsp : shortest_path g s t = .ok (some (bp, bd)))
    (walked : List (Int × Int)) (pf : ℚ) (p : List Int) (d : ℚ)
    (hpen : penalized_astar g s t walked pf = .ok (some (p, d))) :
    bd ≤ d := by
  by_cases hst : s = t
  · unfold shortest_path at hsp
    rw [if_pos hst] at hsp
    unfold penalized_astar at hpen
    rw [if_pos hst] at hpen
    simp only [Except.ok.injEq, Option.some.injEq, Prod.mk.injEq] at hsp hpen
    rw [← hsp.2, ← hpen.2]
  · unfold shortest_path at hsp
    rw [if_neg hst] at hsp
    unfold penalized_astar at hpen
    rw [if_neg hst] at hpen
    split at hsp
    next si ti heq1 heq2 =>
      split at hsp
      next hloop => exact absurd hsp (by simp)
      next idxs d0 hloop =>
        simp only [Except.ok.injEq, Option.some.injEq, Prod.mk.injEq] at hsp
        obtain ⟨-, hbd⟩ := hsp
        split at hpen
        next si2 ti2 heq3 heq4 =>
          have hsi : si2 = si := by
            have h12 := heq1.symm.trans heq3
            injection h12 with h'
            exact h'.symm
          have hti : ti2 = ti := by
            have h12 := heq2.symm.trans heq4
            injection h12 with h'
            exact h'.symm
          rw [hsi, hti] at hpen
          split at hpen
          next hploop => exact absurd hpen (by simp)
          next pidxs hploop =>
            simp only [Except.ok.injEq, Option.some.injEq, Prod.mk.injEq] at hpen
            obtain ⟨-, hd⟩ := hpen
            obtain ⟨hsiN, hsid⟩ := idx_for_osm_spec g s si heq1
            obtain ⟨htiN, htid⟩ := idx_for_osm_spec g t ti heq2
            have hne : si ≠ ti := idx_for_osm_ne g s t si ti heq1 heq2 hst
            obtain ⟨-, -, hmin⟩ :=
              astar_loop_le g si ti hw (hcons ti htiN) (h0 ti htiN) hwf hsiN hne
                (sp_fuel g) (init_state g.number_of_nodes si) idxs d0
                (sp_inv_init g si ti hsiN) hloop
            have hvalid : valid_path g si ti pidxs :=
              pen_loop_valid g walked pf si ti hwf (sp_fuel g)
                (init_state g.number_of_nodes si) pidxs
                (pen_inv_init g si hsiN) hploop
            rw [← hbd, ← hd]
            exact hmin pidxs hvalid
        all_goals exact absurd hpen (by simp)
    all_goals exact absurd hsp (by simp)

/-- `_compute_novelty` always lands in `[0, 1]`: it is `1` on an empty edge
list and a subset fraction otherwise. -/
theorem compute_novelty_bounds (edges walked : List (Int × Int)) :
    0 ≤ compute_novelty edges walked ∧ compute_novelty edges walked ≤ 1 := by
  unfold compute_novelty
  by_cases h : edges = []
  · simp [h]
  · rw [if_neg h]
    have hpos : (0 : ℚ) < (edges.length : ℚ) := by
      have hne : edges.length ≠ 0 := fun hl => h (List.length_eq_zero.mp hl)
      exact_mod_cast Nat.pos_of_ne_zero hne
    constructor
    · exact div_nonneg (by positivity) hpos.le
    · rw [div_le_one hpos]
      exact_mod_cast List.length_filter_le _ edges

/-- C10: every result dictionary returned by `novelty_route` has
`novelty ∈ [0, 1]` and `overhead ≥ 0` — the novelty is a fraction of the
path's edges, and the reported distance is the true length of an actual
source-to-target path, never below the baseline shortest distance used as
the overhead denominator (hypotheses: nonnegative weights, in-range slot
targets, and a heuristic that is consistent and vanishes on the
diagonal — all true of the haversine data the builder produces). -/
theorem novelty_route_bounds (g : CompactGraph) (s t : Int)
    (walked : List (Int × Int)) (mn mo : ℚ) (r : RouteResult)
    (hwf : wf_graph g) (hw : nonneg_weights g)
    (hcons : ∀ v, v < g.node_ids.length → consistent_h g v)
    (h0 : ∀ v, v < g.node_ids.length → g.hdist v v = 0)
    (h : novelty_route g s t walked mn mo = .ok (some r)) :
    0 ≤ r.novelty ∧ r.novelty ≤ 1 ∧ 0 ≤ r.overhead := by
  have hsp : ∃ bp bd, shortest_path g s t = .ok (some (bp, bd)) := by
    have h2 := h
    unfold novelty_route at h2
    split at h2
    next e heq => exact absurd h2 (by simp)
    next heq => exact absurd h2 (by simp)
    next bp bd heq => exact ⟨bp, bd, heq⟩
  obtain ⟨bp, bd, hsp⟩ := hsp
  refine novelty_route_shape g s t walked mn mo r
    (fun o => ∀ x, o = some x → 0 ≤ x.novelty ∧ x.novelty ≤ 1 ∧ 0 ≤ x.overhead)
    h bp bd hsp ?_ ?_ r rfl
  · intro pf p d hpd x hx
    obtain rfl : build_result p d bd walked = x := by injection hx
    obtain ⟨hn1, hn2⟩ := compute_novelty_bounds (path_to_edges p) walked
    refine ⟨hn1, hn2, ?_⟩
    show (0 : ℚ) ≤ if 0 < bd then (d - bd) / bd else 0
    by_cases hb : 0 < bd
    · rw [if_pos hb]
      have hle : bd ≤ d :=
        penalized_ge_baseline g hw hwf hcons h0 s t bp bd hsp walked pf p d hpd
      exact div_nonneg (by linarith) hb.le
    · rw [if_neg hb]
  · intro x hx
    obtain rfl : build_result bp bd bd walked = x := by injection hx
    obtain ⟨hn1, hn2⟩ := compute_novelty_bounds (path_to_edges bp) walked
    refine ⟨hn1, hn2, ?_⟩
    show (0 : ℚ) ≤ if 0 < bd then (bd - bd) / bd else 0
    by_cases hb : 0 < bd
    · rw [if_pos hb]
      simp
    · rw [if_neg hb]

/-- Beyond the last node the triangle's CSR slices are empty. -/
theorem tri_neighbors_hi (u : Nat) (hu : 3 ≤ u) : tri.neighbors u = [] := by
  have hlen4 : tri.adj_offsets.length = 4 := rfl
  have he : tri.adj_offsets.getD (u + 1) 0 = 0 := by
    rw [List.getD_eq_getElem?_getD, List.getElem?_eq_none (by omega)]
    rfl
  show ((tri.adj_targets.drop (tri.adj_offsets.getD u 0)).take
      (tri.adj_offsets.getD (u + 1) 0 - tri.adj_offsets.getD u 0)).zip
    ((tri.adj_weights.drop (tri.adj_offsets.getD u 0)).take
      (tri.adj_offsets.getD (u + 1) 0 - tri.adj_offsets.getD u 0)) = []
  rw [he]
  simp

/-- Slot targets of the triangle graph are in range. -/
theorem tri_wf : wf_graph tri := by
  intro u vw hvw
  by_cases hu : u < 3
  · have key : ∀ u, u < 3 → ∀ vw ∈ tri.neighbors u,
        vw.1 < tri.node_ids.length := by decide!
    exact key u hu vw hvw
  · rw [tri_neighbors_hi u (by omega)] at hvw
    cases hvw

/-- The triangle's weights are nonnegative. -/
theorem tri_nonneg : nonneg_weights tri := by
  intro u vw hvw
  by_cases hu : u < 3
  · have key : ∀ u, u < 3 → ∀ vw ∈ tri.neighbors u, 0 ≤ vw.2 := by decide!
    exact key u hu vw hvw
  · rw [tri_neighbors_hi u (by omega)] at hvw
    cases hvw

/-- The triangle's haversine matrix is consistent toward every node. -/
theorem tri_consistent : ∀ v, v < tri.node_ids.length → consistent_h tri v := by
  intro v hv u vw hvw
  by_cases hu : u < 3
  · have key : ∀ v, v < 3 → ∀ u, u < 3 → ∀ vw ∈ tri.neighbors u,
        tri.hdist u v ≤ vw.2 + tri.hdist vw.1 v := by decide!
    have hv3 : v < 3 := by simpa [tri] using hv
    exact key v hv3 u hu vw hvw
  · rw [tri_neighbors_hi u (by omega)] at hvw
    cases hvw

/-- The triangle's haversine matrix vanishes on the diagonal. -/
theorem tri_hzero : ∀ v, v < tri.node_ids.length → tri.hdist v v = 0 := by
  intro v hv
  simp [tri]

/-- Witness for C10: the triangle detour result of scenario S2 has novelty
in `[0, 1]` and nonnegative overhead. -/
theorem novelty_route_bounds_witness :
    0 ≤ ({ path := [1, 2, 3], edges := [(1, 2), (2, 3)], distance := wA + wB,
           shortest_distance := wA, novelty := 1,
           overhead := wB / wA } : RouteResult).novelty ∧
    ({ path := [1, 2, 3], edges := [(1, 2), (2, 3)], distance := wA + wB,
       shortest_distance := wA, novelty := 1,
       overhead := wB / wA } : RouteResult).novelty ≤ 1 ∧
    0 ≤ ({ path := [1, 2, 3], edges := [(1, 2), (2, 3)], distance := wA + wB,
           shortest_distance := wA, novelty := 1,
           overhead := wB / wA } : RouteResult).overhead :=
  novelty_route_bounds tri 1 3 [(1, 3)] (1/2) (3/2)
    { path := [1, 2, 3], edges := [(1, 2), (2, 3)], distance := wA + wB,
      shortest_distance := wA, novelty := 1, overhead := wB / wA }
    tri_wf tri_nonneg tri_consistent tri_hzero (by decide!)


end OsmRouter
